import Mathlib

/-!
Verification of the AyurvaBot retrieval core (`src/chunking.py`,
`src/entity_extractor.py`, `src/query_processor.py`, `src/knowledge_base.py`,
`src/rag_system.py`) against its natural-language specification.

Python strings are modelled as lists of characters (`Str`); machine floats
appear only as relevance scores, whose ordering is all the code consumes, so
they are modelled as integers.  Python `set`s whose iteration order is
observable are modelled as insertion-ordered duplicate-free lists; where the
code only sorts the final set, the order of the model is irrelevant.
-/

namespace AyurvaBot

/-- Python strings modelled as lists of characters. -/
abbrev Str := List Char

/-- The ASCII characters Python's `str.split()` / `str.strip()` / the regex
class `\s` treat as whitespace. -/
def pySpace (c : Char) : Bool :=
  c = ' ' || c = '\t' || c = '\n' || c = '\r' || c = '\x0b' || c = '\x0c'

/-- Python `str.strip()`: drop leading and trailing whitespace. -/
def strip (s : Str) : Str :=
  ((s.dropWhile pySpace).reverse.dropWhile pySpace).reverse

/-- Python `str.lower()` (ASCII range; the gazetteer and all configuration
strings in the repository are ASCII). -/
def pyLower (s : Str) : Str := s.map Char.toLower

/-- Python `str.upper()` (ASCII range). -/
def pyUpper (s : Str) : Str := s.map Char.toUpper

/-- Python `str.split()` with no argument: split on whitespace runs, dropping
empty fragments. -/
def splitWsRec : Str → List Str
  | [] => []
  | c :: cs =>
    if pySpace c then splitWsRec cs
    else
      ((c :: cs).takeWhile (fun d => !pySpace d)) ::
        splitWsRec ((c :: cs).dropWhile (fun d => !pySpace d))
termination_by s => s.length
decreasing_by
  · simp only [List.length_cons]; omega
  · simp only [List.dropWhile_cons, List.length_cons]
    split
    · exact Nat.lt_succ_of_le (List.dropWhile_sublist _).length_le
    · simp_all

/-- Python `" ".join(l)`. -/
def sepJoin : List Str → Str
  | [] => []
  | [t] => t
  | t :: u :: us => t ++ ' ' :: sepJoin (u :: us)

/-- Insertion step of a stable insertion sort: `x` is placed before the first
element `y` with `le x y`. -/
def insertLe (le : α → α → Bool) (x : α) : List α → List α
  | [] => [x]
  | y :: ys => if le x y then x :: y :: ys else y :: insertLe le x ys

/-- Stable insertion sort, modelling Python's stable `list.sort` /
`sorted`. -/
def sortLe (le : α → α → Bool) : List α → List α
  | [] => []
  | x :: xs => insertLe le x (sortLe le xs)

/-- Python string comparison: lexicographic on code points. -/
def strLe : Str → Str → Bool
  | [], _ => true
  | _ :: _, [] => false
  | a :: as, b :: bs => if a < b then true else if b < a then false else strLe as bs

/-- Keep the first occurrence of each element (Python set insertion order). -/
def dedupFGo [DecidableEq α] (seen : List α) : List α → List α
  | [] => []
  | x :: xs => if x ∈ seen then dedupFGo seen xs else x :: dedupFGo (x :: seen) xs

/-- Remove duplicates keeping first occurrences. -/
def dedupF [DecidableEq α] (l : List α) : List α := dedupFGo [] l

/-- Add an element to a Python set modelled as an insertion-ordered list. -/
def pyAdd [DecidableEq α] (s : List α) (x : α) : List α :=
  if x ∈ s then s else s ++ [x]

theorem insertLe_perm (le : α → α → Bool) (x : α) (l : List α) :
    List.Perm (insertLe le x l) (x :: l) := by
  induction l with
  | nil => rfl
  | cons y ys ih =>
    simp only [insertLe]
    split
    · rfl
    · exact (List.Perm.cons y ih).trans (List.Perm.swap x y ys)

theorem sortLe_perm (le : α → α → Bool) (l : List α) : List.Perm (sortLe le l) l := by
  induction l with
  | nil => rfl
  | cons x xs ih =>
    simp only [sortLe]
    exact (insertLe_perm le x (sortLe le xs)).trans (List.Perm.cons x ih)

theorem insertLe_chain (le : α → α → Bool)
    (htot : ∀ a b, le a b = true ∨ le b a = true) (x : α) (l : List α)
    (hl : List.Chain' (fun a b => le a b = true) l) :
    List.Chain' (fun a b => le a b = true) (insertLe le x l) := by
  induction l with
  | nil => simp [insertLe]
  | cons y ys ih =>
    simp only [insertLe]
    split
    · exact List.Chain'.cons (by assumption) hl
    · have hyx : le y x = true := by
        rcases htot x y with h | h
        · simp_all
        · exact h
      have hys : List.Chain' (fun a b => le a b = true) ys := hl.tail
      have hins := ih hys
      cases ys with
      | nil => simpa [insertLe] using hyx
      | cons z zs =>
        by_cases hxz : le x z = true
        · simp only [insertLe, if_pos hxz] at hins ⊢
          exact List.Chain'.cons hyx hins
        · simp only [insertLe, if_neg hxz] at hins ⊢
          exact List.Chain'.cons (List.chain'_cons.mp hl).1 hins

theorem sortLe_chain (le : α → α → Bool)
    (htot : ∀ a b, le a b = true ∨ le b a = true) (l : List α) :
    List.Chain' (fun a b => le a b = true) (sortLe le l) := by
  induction l with
  | nil => simp [sortLe]
  | cons x xs ih => exact insertLe_chain le htot x (sortLe le xs) ih

theorem sortLe_of_chain (le : α → α → Bool) (l : List α)
    (hl : List.Chain' (fun a b => le a b = true) l) : sortLe le l = l := by
  induction l with
  | nil => rfl
  | cons x xs ih =>
    simp only [sortLe]
    rw [ih hl.tail]
    cases xs with
    | nil => rfl
    | cons y ys =>
      have hxy : le x y = true := (List.chain'_cons.mp hl).1
      simp [insertLe, hxy]

theorem strLe_total : ∀ a b : Str, strLe a b = true ∨ strLe b a = true := by
  intro a
  induction a with
  | nil => intro b; left; rfl
  | cons c cs ih =>
    intro b
    cases b with
    | nil => right; rfl
    | cons d ds =>
      by_cases h1 : c < d
      · left; simp [strLe, h1]
      · by_cases h2 : d < c
        · right; simp [strLe, h2]
        · rcases ih ds with h | h
          · left; simp [strLe, h1, h2, h]
          · right; simp [strLe, h1, h2, h]

theorem chain'_take {R : α → α → Prop} :
    ∀ (l : List α), List.Chain' R l → ∀ n, List.Chain' R (l.take n)
  | _, _, 0 => by simp
  | [], _, _ + 1 => by simp
  | [a], h, n + 1 => by
    cases n <;> simp
  | a :: b :: l, h, n + 1 => by
    rcases List.chain'_cons.mp h with ⟨hab, htl⟩
    cases n with
    | zero => simp
    | succ m =>
      simpa using List.chain'_cons.mpr ⟨hab, chain'_take (b :: l) htl (m + 1)⟩

theorem mem_splitWsRec (s : Str) :
    ∀ t ∈ splitWsRec s, t ≠ [] ∧ ∀ c ∈ t, pySpace c = false := by
  induction s using splitWsRec.induct with
  | case1 => intro t ht; simp [splitWsRec] at ht
  | case2 c cs hc ih =>
    intro t ht
    rw [splitWsRec, if_pos hc] at ht
    exact ih t ht
  | case3 c cs hc ih =>
    intro t ht
    rw [splitWsRec, if_neg hc] at ht
    rcases List.mem_cons.mp ht with h | h
    · subst h
      refine ⟨by simp [List.takeWhile_cons, hc], ?_⟩
      intro d hd
      have := List.mem_takeWhile_imp hd
      simpa using this
    · exact ih t h

theorem splitWsRec_allspace (s : Str) (h : ∀ c ∈ s, pySpace c = true) :
    splitWsRec s = [] := by
  induction s with
  | nil => simp [splitWsRec]
  | cons c cs ih =>
    rw [splitWsRec, if_pos (h c (by simp))]
    exact ih fun d hd => h d (by simp [hd])

theorem takeWhile_append_of_all {p : α → Bool} (a b : List α)
    (h : ∀ x ∈ a, p x = true) : (a ++ b).takeWhile p = a ++ b.takeWhile p := by
  induction a with
  | nil => rfl
  | cons x xs ih =>
    have hx : p x = true := h x (by simp)
    have := ih fun y hy => h y (by simp [hy])
    simp [List.takeWhile_cons, hx, this]

theorem dropWhile_append_of_all {p : α → Bool} (a b : List α)
    (h : ∀ x ∈ a, p x = true) : (a ++ b).dropWhile p = b.dropWhile p := by
  induction a with
  | nil => rfl
  | cons x xs ih =>
    have hx : p x = true := h x (by simp)
    have := ih fun y hy => h y (by simp [hy])
    simp [List.dropWhile_cons, hx, this]

theorem takeWhile_append_of_bad {p : α → Bool} (a b : List α)
    (h : ∃ x ∈ a, p x = false) : (a ++ b).takeWhile p = a.takeWhile p := by
  induction a with
  | nil => simp at h
  | cons x xs ih =>
    by_cases hx : p x = true
    · rcases h with ⟨y, hy, hyp⟩
      rcases List.mem_cons.mp hy with rfl | hy
      · simp [hx] at hyp
      · simp [List.takeWhile_cons, hx, ih ⟨y, hy, hyp⟩]
    · have hx' : p x = false := by simpa using hx
      simp [List.takeWhile_cons, hx']

theorem dropWhile_append_of_bad {p : α → Bool} (a b : List α)
    (h : ∃ x ∈ a, p x = false) : (a ++ b).dropWhile p = a.dropWhile p ++ b := by
  induction a with
  | nil => simp at h
  | cons x xs ih =>
    by_cases hx : p x = true
    · rcases h with ⟨y, hy, hyp⟩
      rcases List.mem_cons.mp hy with rfl | hy
      · simp [hx] at hyp
      · simp [List.dropWhile_cons, hx, ih ⟨y, hy, hyp⟩]
    · have hx' : p x = false := by simpa using hx
      simp [List.dropWhile_cons, hx']

theorem splitWsRec_append_allspace (a w : Str) (hw : ∀ c ∈ w, pySpace c = true) :
    splitWsRec (a ++ w) = splitWsRec a := by
  induction a using splitWsRec.induct with
  | case1 =>
    simp only [List.nil_append]
    rw [splitWsRec_allspace w hw]
    simp [splitWsRec]
  | case2 c cs hc ih =>
    rw [List.cons_append, splitWsRec, if_pos hc, ih]
    conv_rhs => rw [splitWsRec, if_pos hc]
  | case3 c cs hc ih =>
    rw [List.cons_append, splitWsRec, if_neg hc, ← List.cons_append]
    by_cases hall : ∀ x ∈ c :: cs, (fun d => !pySpace d) x = true
    · rw [takeWhile_append_of_all _ _ hall, dropWhile_append_of_all _ _ hall]
      have h1 : (c :: cs).takeWhile (fun d => !pySpace d) = c :: cs :=
        List.takeWhile_eq_self_iff.mpr hall
      have h2 : (c :: cs).dropWhile (fun d => !pySpace d) = [] :=
        List.dropWhile_eq_nil_iff.mpr fun x hx => hall x hx
      have h3 : w.takeWhile (fun d => !pySpace d) = [] := by
        cases w with
        | nil => rfl
        | cons d ds => simp [List.takeWhile_cons, hw d (by simp)]
      have h4 : w.dropWhile (fun d => !pySpace d) = w := by
        cases w with
        | nil => rfl
        | cons d ds => simp [List.dropWhile_cons, hw d (by simp)]
      rw [h3, h4, splitWsRec_allspace w hw]
      conv_rhs => rw [splitWsRec, if_neg hc, h1, h2]
      simp [splitWsRec]
    · push_neg at hall
      rcases hall with ⟨x, hx, hxp⟩
      have hbad : ∃ x ∈ c :: cs, (fun d => !pySpace d) x = false := ⟨x, hx, by simpa using hxp⟩
      rw [takeWhile_append_of_bad _ _ hbad, dropWhile_append_of_bad _ _ hbad, ih]
      conv_rhs => rw [splitWsRec, if_neg hc]

theorem splitWsRec_append_space_cons (a b : Str) :
    splitWsRec (a ++ ' ' :: b) = splitWsRec a ++ splitWsRec b := by
  have hsp : pySpace ' ' = true := by decide
  induction a using splitWsRec.induct with
  | case1 =>
    simp only [List.nil_append]
    conv_lhs => rw [splitWsRec]
    rw [if_pos hsp]
    simp [splitWsRec]
  | case2 c cs hc ih =>
    rw [List.cons_append, splitWsRec, if_pos hc, ih]
    conv_rhs => rw [splitWsRec, if_pos hc]
  | case3 c cs hc ih =>
    rw [List.cons_append, splitWsRec, if_neg hc, ← List.cons_append]
    by_cases hall : ∀ x ∈ c :: cs, (fun d => !pySpace d) x = true
    · rw [takeWhile_append_of_all _ _ hall, dropWhile_append_of_all _ _ hall]
      have h1 : (c :: cs).takeWhile (fun d => !pySpace d) = c :: cs :=
        List.takeWhile_eq_self_iff.mpr hall
      have h2 : (c :: cs).dropWhile (fun d => !pySpace d) = [] :=
        List.dropWhile_eq_nil_iff.mpr fun x hx => hall x hx
      have h3 : (' ' :: b).takeWhile (fun d => !pySpace d) = [] := by
        simp [List.takeWhile_cons, hsp]
      have h4 : (' ' :: b).dropWhile (fun d => !pySpace d) = ' ' :: b := by
        simp [List.dropWhile_cons, hsp]
      rw [h3, h4]
      rw [show splitWsRec (' ' :: b) = splitWsRec b by
        conv_lhs => rw [splitWsRec]
        rw [if_pos hsp]]
      conv_rhs => rw [splitWsRec, if_neg hc, h1, h2]
      simp [splitWsRec]
    · push_neg at hall
      rcases hall with ⟨x, hx, hxp⟩
      have hbad : ∃ x ∈ c :: cs, (fun d => !pySpace d) x = false := ⟨x, hx, by simpa using hxp⟩
      rw [takeWhile_append_of_bad _ _ hbad, dropWhile_append_of_bad _ _ hbad, ih]
      conv_rhs => rw [splitWsRec, if_neg hc]
      simp

theorem splitWsRec_sepJoin (l : List Str) :
    splitWsRec (sepJoin l) = (l.map splitWsRec).flatten := by
  induction l with
  | nil => simp [sepJoin, splitWsRec]
  | cons t rest ih =>
    cases rest with
    | nil => simp [sepJoin]
    | cons u us =>
      rw [show sepJoin (t :: u :: us) = t ++ ' ' :: sepJoin (u :: us) by simp [sepJoin]]
      rw [splitWsRec_append_space_cons, ih]
      simp

theorem splitWsRec_token (t : Str) (hne : t ≠ [])
    (hns : ∀ c ∈ t, pySpace c = false) : splitWsRec t = [t] := by
  cases t with
  | nil => simp at hne
  | cons c cs =>
    rw [splitWsRec, if_neg (by simp [hns c (by simp)])]
    have h1 : (c :: cs).takeWhile (fun d => !pySpace d) = c :: cs :=
      List.takeWhile_eq_self_iff.mpr (by intro x hx; simp [hns x hx])
    have h2 : (c :: cs).dropWhile (fun d => !pySpace d) = [] :=
      List.dropWhile_eq_nil_iff.mpr (by intro x hx; simp [hns x hx])
    rw [h1, h2]
    simp [splitWsRec]

theorem splitWsRec_sepJoin_tokens (l : List Str)
    (h : ∀ t ∈ l, t ≠ [] ∧ ∀ c ∈ t, pySpace c = false) :
    splitWsRec (sepJoin l) = l := by
  rw [splitWsRec_sepJoin]
  have hmap : l.map splitWsRec = l.map (fun t => [t]) := by
    apply List.map_congr_left
    intro t ht
    exact splitWsRec_token t (h t ht).1 (h t ht).2
  rw [hmap]
  have : ∀ (m : List Str), (m.map (fun t => [t])).flatten = m := by
    intro m
    induction m with
    | nil => rfl
    | cons x xs ih => simp [ih]
  exact this l

theorem splitWsRec_dropWhile (s : Str) :
    splitWsRec (s.dropWhile pySpace) = splitWsRec s := by
  induction s with
  | nil => rfl
  | cons c cs ih =>
    by_cases hc : pySpace c = true
    · rw [List.dropWhile_cons, if_pos hc, ih, splitWsRec, if_pos hc]
    · rw [List.dropWhile_cons, if_neg hc]

theorem splitWsRec_strip (s : Str) : splitWsRec (strip s) = splitWsRec s := by
  have key : ∀ u : Str, splitWsRec (u.reverse.dropWhile pySpace).reverse = splitWsRec u := by
    intro u
    have hdecomp : u = (u.reverse.dropWhile pySpace).reverse ++
        (u.reverse.takeWhile pySpace).reverse := by
      conv_lhs => rw [← u.reverse_reverse, ← List.takeWhile_append_dropWhile (p := pySpace) (l := u.reverse)]
      rw [List.reverse_append]
    have hws : ∀ c ∈ (u.reverse.takeWhile pySpace).reverse, pySpace c = true := by
      intro c hc
      exact List.mem_takeWhile_imp (List.mem_reverse.mp hc)
    conv_rhs => rw [hdecomp]
    rw [splitWsRec_append_allspace _ _ hws]
  rw [strip, key, splitWsRec_dropWhile]

theorem strip_allspace (s : Str) (h : ∀ c ∈ s, pySpace c = true) :
    strip s = [] := by
  have h1 : s.dropWhile pySpace = [] := List.dropWhile_eq_nil_iff.mpr h
  rw [strip, h1]
  rfl

theorem head_dropWhile_false {p : α → Bool} :
    ∀ (l : List α) (c : α) (t : List α), l.dropWhile p = c :: t → p c = false := by
  intro l
  induction l with
  | nil => intro c t h; simp at h
  | cons a as ih =>
    intro c t h
    rw [List.dropWhile_cons] at h
    split at h
    · exact ih c t h
    · cases h
      simp_all

theorem dropWhile_cons_false {p : α → Bool} (c : α) (t : List α) (hc : p c = false) :
    (c :: t).dropWhile p = c :: t := by
  rw [List.dropWhile_cons, if_neg (by simp [hc])]

theorem dropWhile_idem {p : α → Bool} (l : List α) :
    (l.dropWhile p).dropWhile p = l.dropWhile p := by
  cases hval : l.dropWhile p with
  | nil => rfl
  | cons c t => exact dropWhile_cons_false c t (head_dropWhile_false l c t hval)

theorem allspace_of_splitWsRec_eq_nil (s : Str) (h : splitWsRec s = []) :
    ∀ c ∈ s, pySpace c = true := by
  induction s using splitWsRec.induct with
  | case1 => simp
  | case2 c cs hc ih =>
    rw [splitWsRec, if_pos hc] at h
    intro d hd
    rcases List.mem_cons.mp hd with rfl | hd
    · exact hc
    · exact ih h d hd
  | case3 c cs hc ih =>
    rw [splitWsRec, if_neg hc] at h
    simp at h

theorem reverse_strip (s : Str) :
    (strip s).reverse = ((s.dropWhile pySpace).reverse).dropWhile pySpace := by
  rw [strip, List.reverse_reverse]

theorem splitWsRec_nonempty_of_strip (x : Str) (h : strip x ≠ []) :
    splitWsRec (strip x) ≠ [] := by
  intro hcon
  have hall := allspace_of_splitWsRec_eq_nil _ hcon
  cases hwval : ((x.dropWhile pySpace).reverse).dropWhile pySpace with
  | nil =>
    apply h
    have : (strip x).reverse = [] := by rw [reverse_strip, hwval]
    simpa using this
  | cons c t =>
    have hc : pySpace c = false := head_dropWhile_false _ c t hwval
    have hmem : c ∈ strip x := by
      have : c ∈ (strip x).reverse := by rw [reverse_strip, hwval]; simp
      simpa using this
    have := hall c hmem
    simp [hc] at this

theorem strip_prefix_dropWhile (s : Str) : strip s <+: s.dropWhile pySpace := by
  have hsuf : ((s.dropWhile pySpace).reverse).dropWhile pySpace <:+
      (s.dropWhile pySpace).reverse := List.dropWhile_suffix _
  have := List.reverse_prefix.mpr hsuf
  simpa [strip] using this

theorem head_strip_false (s : Str) (c : Char) (t : Str) (h : strip s = c :: t) :
    pySpace c = false := by
  rcases strip_prefix_dropWhile s with ⟨r, hr⟩
  rw [h] at hr
  exact head_dropWhile_false s c (t ++ r) (by rw [← hr]; simp)

theorem strip_idem (s : Str) : strip (strip s) = strip s := by
  have hA : (strip s).dropWhile pySpace = strip s := by
    cases hval : strip s with
    | nil => rfl
    | cons c t => exact dropWhile_cons_false c t (head_strip_false s c t hval)
  have hB : (strip s).reverse.dropWhile pySpace = (strip s).reverse := by
    rw [reverse_strip, dropWhile_idem]
  rw [strip, hA, hB, List.reverse_reverse]

/-- Single-pass accumulator scanner for Python `str.split()`; `cur` holds
the characters of the current token in reverse. -/
def splitWsGo (cur : Str) : Str → List Str
  | [] => if cur = [] then [] else [cur.reverse]
  | c :: cs =>
    if pySpace c then
      if cur = [] then splitWsGo [] cs else cur.reverse :: splitWsGo [] cs
    else splitWsGo (c :: cur) cs

/-- Python `str.split()` with no argument (structurally recursive, hence
kernel-computable); `splitWsRec` above is the equivalent maximal-run
formulation used by the lemmas, see `splitWs_eq_rec`. -/
def splitWs (s : Str) : List Str := splitWsGo [] s

theorem splitWsGo_eq : ∀ (n : Nat) (s : Str), s.length ≤ n →
    (splitWsGo [] s = splitWsRec s) ∧
    (∀ a : Str, a ≠ [] → splitWsGo a s =
      (a.reverse ++ s.takeWhile (fun d => !pySpace d)) ::
        splitWsRec (s.dropWhile (fun d => !pySpace d))) := by
  intro n
  induction n with
  | zero =>
    intro s hs
    have hnil : s = [] := List.eq_nil_of_length_eq_zero (Nat.le_zero.mp hs)
    subst hnil
    constructor
    · simp [splitWsGo, splitWsRec]
    · intro a ha
      simp [splitWsGo, ha, splitWsRec]
  | succ n ih =>
    intro s hs
    cases s with
    | nil =>
      constructor
      · simp [splitWsGo, splitWsRec]
      · intro a ha
        simp [splitWsGo, ha, splitWsRec]
    | cons c cs =>
      have hcs : cs.length ≤ n := by
        simp only [List.length_cons] at hs
        omega
      by_cases hc : pySpace c = true
      · constructor
        · rw [show splitWsGo [] (c :: cs) = splitWsGo [] cs by simp [splitWsGo, hc]]
          rw [(ih cs hcs).1]
          conv_rhs => rw [splitWsRec, if_pos hc]
        · intro a ha
          rw [show splitWsGo a (c :: cs) = a.reverse :: splitWsGo [] cs by
            simp [splitWsGo, hc, ha]]
          rw [(ih cs hcs).1]
          rw [show (c :: cs).takeWhile (fun d => !pySpace d) = [] by
            simp [List.takeWhile_cons, hc]]
          rw [show (c :: cs).dropWhile (fun d => !pySpace d) = c :: cs by
            simp [List.dropWhile_cons, hc]]
          rw [show splitWsRec (c :: cs) = splitWsRec cs by rw [splitWsRec, if_pos hc]]
          simp
      · constructor
        · rw [show splitWsGo [] (c :: cs) = splitWsGo [c] cs by simp [splitWsGo, hc]]
          rw [(ih cs hcs).2 [c] (by simp)]
          rw [show splitWsRec (c :: cs) =
              ((c :: cs).takeWhile (fun d => !pySpace d)) ::
                splitWsRec ((c :: cs).dropWhile (fun d => !pySpace d)) by
            rw [splitWsRec, if_neg hc]]
          rw [show (c :: cs).takeWhile (fun d => !pySpace d) = c :: cs.takeWhile (fun d => !pySpace d) by
            simp [List.takeWhile_cons, hc]]
          rw [show (c :: cs).dropWhile (fun d => !pySpace d) = cs.dropWhile (fun d => !pySpace d) by
            simp [List.dropWhile_cons, hc]]
          simp
        · intro a ha
          rw [show splitWsGo a (c :: cs) = splitWsGo (c :: a) cs by simp [splitWsGo, hc]]
          rw [(ih cs hcs).2 (c :: a) (by simp)]
          rw [show (c :: cs).takeWhile (fun d => !pySpace d) = c :: cs.takeWhile (fun d => !pySpace d) by
            simp [List.takeWhile_cons, hc]]
          rw [show (c :: cs).dropWhile (fun d => !pySpace d) = cs.dropWhile (fun d => !pySpace d) by
            simp [List.dropWhile_cons, hc]]
          simp

theorem splitWs_eq_rec (s : Str) : splitWs s = splitWsRec s :=
  (splitWsGo_eq s.length s (Nat.le_refl _)).1

theorem mem_splitWs (s : Str) :
    ∀ t ∈ splitWs s, t ≠ [] ∧ ∀ c ∈ t, pySpace c = false := by
  rw [splitWs_eq_rec]
  exact mem_splitWsRec s

theorem splitWs_allspace (s : Str) (h : ∀ c ∈ s, pySpace c = true) :
    splitWs s = [] := by
  rw [splitWs_eq_rec]
  exact splitWsRec_allspace s h

theorem splitWs_sepJoin (l : List Str) :
    splitWs (sepJoin l) = (l.map splitWs).flatten := by
  rw [splitWs_eq_rec, splitWsRec_sepJoin]
  congr 1
  exact List.map_congr_left fun t _ => (splitWs_eq_rec t).symm

theorem splitWs_token (t : Str) (hne : t ≠ [])
    (hns : ∀ c ∈ t, pySpace c = false) : splitWs t = [t] := by
  rw [splitWs_eq_rec]
  exact splitWsRec_token t hne hns

theorem splitWs_sepJoin_tokens (l : List Str)
    (h : ∀ t ∈ l, t ≠ [] ∧ ∀ c ∈ t, pySpace c = false) :
    splitWs (sepJoin l) = l := by
  rw [splitWs_eq_rec]
  exact splitWsRec_sepJoin_tokens l h

theorem splitWs_strip (s : Str) : splitWs (strip s) = splitWs s := by
  rw [splitWs_eq_rec, splitWs_eq_rec]
  exact splitWsRec_strip s

theorem allspace_of_splitWs_eq_nil (s : Str) (h : splitWs s = []) :
    ∀ c ∈ s, pySpace c = true := by
  rw [splitWs_eq_rec] at h
  exact allspace_of_splitWsRec_eq_nil s h

theorem splitWs_nonempty_of_strip (x : Str) (h : strip x ≠ []) :
    splitWs (strip x) ≠ [] := by
  rw [splitWs_eq_rec]
  exact splitWsRec_nonempty_of_strip x h

/-! Chunking engine (`src/chunking.py`).  The spaCy sentence splitter is an
optional dependency whose load is guarded; the model embeds the regex
fallback `re.split(r"(?<=[.!?])\s+(?=[A-Z0-9])", text.strip())` that the code
uses when spaCy is absent. -/

/-- Sentence-final punctuation, the regex class `[.!?]`. -/
def sentEnd (c : Char) : Bool := c = '.' || c = '!' || c = '?'

/-- The regex class `[A-Z0-9]` (ASCII). -/
def sentStart (c : Char) : Bool := c.isUpper || c.isDigit

/-- Scanner for `re.split(r"(?<=[.!?])\\s+(?=[A-Z0-9])", s)`: a maximal
whitespace run is a split point exactly when the character before it is
sentence-final punctuation and the character after it is an ASCII upper-case
letter or digit.  `prev` is the previously scanned character, `pend` buffers
a candidate whitespace run (nonempty only when the run was preceded by
sentence-final punctuation), `cur` accumulates the current part. -/
def sentGo (prev : Option Char) (pend : Str) (cur : Str) : Str → List Str
  | [] => [cur ++ pend]
  | c :: cs =>
    if pySpace c then
      if pend ≠ [] then sentGo prev (pend ++ [c]) cur cs
      else if (match prev with | some p => sentEnd p | none => false) then
        sentGo prev [c] cur cs
      else sentGo (some c) [] (cur ++ [c]) cs
    else
      if pend ≠ [] then
        if sentStart c then cur :: sentGo (some c) [] [c] cs
        else sentGo (some c) [] (cur ++ pend ++ [c]) cs
      else sentGo (some c) [] (cur ++ [c]) cs

/-- `_split_sentences` of `src/chunking.py` (regex fallback path). -/
def splitSentences (text : Str) : List Str :=
  ((sentGo none [] [] (strip text)).map strip).filter (fun p => p ≠ [])

/-- Python `s.rsplit(" ", 1)[0]`: everything before the last space, or the
whole string when it has no space. -/
def pyRsplitSpaceHead (s : Str) : Str :=
  if ' ' ∈ s then (((s.reverse).dropWhile (fun c => c ≠ ' ')).drop 1).reverse else s

/-- The continuation-marker literal appearing in `_summarize` (the source
file stores the ellipsis as the three mojibake characters). -/
def ellipsisLit : Str := ("â€¦").toList

/-- `_summarize` of `src/chunking.py`. -/
def summarize (text : Str) (maxChars : Nat) : Str :=
  let sentences := splitSentences text
  let fallback : Str :=
    if maxChars < text.length then pyRsplitSpaceHead (text.take maxChars) ++ ellipsisLit
    else text
  match sentences with
  | first :: _ => if first.length ≤ maxChars then first else fallback
  | [] => fallback

/-- A chunk record `{'text': ..., 'summary': ...}`. -/
structure Chunk where
  text : Str
  summary : Str
deriving DecidableEq, Repr

/-- The `(start, end)` index pairs traced by the `while` loop of
`sliding_window_chunk`.  The loop advances `start` to `end - overlap`, so it
terminates exactly when `overlap < window`, which holds at every call site
(140/40, `target_tokens`/35, `max_tokens`/overlap with defaults 110/35,
180/35); the `start < 0` and `start >= len(tokens)` guards of the source are
unreachable in that regime. -/
def slidingRangesGo (W O n : Nat) (h : O < W) (start : Nat) : List (Nat × Nat) :=
  if hs : start < n then
    if he : n ≤ start + W then [(start, n)]
    else (start, start + W) :: slidingRangesGo W O n h (start + W - O)
  else []
termination_by n - start
decreasing_by omega

/-- `sliding_window_chunk` of `src/chunking.py` (source defaults
`window_tokens=140`, `overlap_tokens=40`). -/
def sliding_window_chunk (text : Str) (windowTokens overlapTokens : Nat)
    (h : overlapTokens < windowTokens) : List Chunk :=
  let tokens := splitWs text
  if tokens.isEmpty then []
  else
    (slidingRangesGo windowTokens overlapTokens tokens.length h 0).filterMap
      (fun r =>
        let piece := strip (sepJoin ((tokens.drop r.1).take (r.2 - r.1)))
        if piece = [] then none
        else some { text := piece, summary := summarize piece 180 })

/-- Scanner for `re.split(r"\\n{2,}", text)`: split at maximal runs of two
or more newline characters; `pend` buffers the current newline run. -/
def splitMultiNewline (pend cur : Str) : Str → List Str
  | [] => if 2 ≤ pend.length then [cur, []] else [cur ++ pend]
  | c :: cs =>
    if c = ('\n' : Char) then splitMultiNewline (pend ++ [c]) cur cs
    else if 2 ≤ pend.length then cur :: splitMultiNewline [] [c] cs
    else splitMultiNewline [] (cur ++ pend ++ [c]) cs

/-- The characters Python `str.splitlines` treats as line boundaries
(`\r\n` is handled as a single boundary by the scanner below). -/
def lineBreakChar (c : Char) : Bool :=
  c = '\n' || c = '\r' || c = '\x0b' || c = '\x0c' ||
  c = '\x1c' || c = '\x1d' || c = '\x1e' || c = '\x85' ||
  c = ' ' || c = ' '

/-- Python `str.splitlines()`. -/
def splitLinesGo (cur : Str) : Str → List Str
  | [] => if cur = [] then [] else [cur]
  | '\r' :: '\n' :: cs => cur :: splitLinesGo [] cs
  | c :: cs =>
    if lineBreakChar c then cur :: splitLinesGo [] cs
    else splitLinesGo (cur ++ [c]) cs

/-- Python `str.splitlines()` on a whole string. -/
def pySplitLines (s : Str) : List Str := splitLinesGo [] s

/-- `HEADING_PATTERN = re.compile(r"^(#{1,6}\s+|[A-Z][A-Z\s]{6,}|\d+\.\s+)")`,
matched at the start of a line. -/
def headingMatch (line : Str) : Bool :=
  let hs := line.takeWhile (fun c => c = '#')
  let hashCase := 1 ≤ hs.length && hs.length ≤ 6 &&
    (match line.drop hs.length with | c :: _ => pySpace c | [] => false)
  let upperCase :=
    match line with
    | c0 :: rest => c0.isUpper && 6 ≤ rest.length &&
        (rest.take 6).all (fun c => c.isUpper || pySpace c)
    | [] => false
  let ds := line.takeWhile Char.isDigit
  let digitCase := 1 ≤ ds.length &&
    (match line.drop ds.length with
     | '.' :: c :: _ => pySpace c
     | _ => false)
  hashCase || upperCase || digitCase

/-- The inner `for line in lines` loop of `structural_split`, carrying the
`current` accumulator. -/
def refineGo : List Str → List Str → List Str
  | [], current => if current ≠ [] then [strip (sepJoin current)] else []
  | line :: rest, current =>
    let ls := strip line
    if headingMatch ls ∧ current ≠ [] then
      strip (sepJoin current) :: refineGo rest [ls]
    else refineGo rest (current ++ [ls])

/-- Refinement of one blank-line-separated block of `structural_split`. -/
def refineBlock (p : Str) : List Str := refineGo (pySplitLines p) []

/-- `structural_split` of `src/chunking.py`. -/
def structural_split (text : Str) : List Str :=
  let parts := ((splitMultiNewline [] [] text).map strip).filter (fun p => p ≠ [])
  ((parts.map refineBlock).flatten).filter (fun r => r ≠ [])

/-- The `if buffer: merged = " ".join(buffer).strip(); if merged: append`
flush step of `semantic_pack`. -/
def flushBuffer (buffer : List Str) : List Chunk :=
  if buffer = [] then []
  else
    let merged := strip (sepJoin buffer)
    if merged = [] then [] else [{ text := merged, summary := summarize merged 180 }]

/-- The `for para in paragraphs` loop of `semantic_pack`, carrying the
`buffer` and `buffer_len` accumulators. -/
def semanticPackGo (target maxT : Nat) (h35 : 35 < target) :
    List Str → List Str → Nat → List Chunk
  | [], buffer, _ => flushBuffer buffer
  | para :: rest, buffer, bufLen =>
    let ptokLen := (splitWs para).length
    if maxT < ptokLen then
      flushBuffer buffer ++ sliding_window_chunk para target 35 h35 ++
        semanticPackGo target maxT h35 rest [] 0
    else if bufLen + ptokLen ≤ maxT then
      if target ≤ bufLen + ptokLen then
        flushBuffer (buffer ++ [para]) ++ semanticPackGo target maxT h35 rest [] 0
      else semanticPackGo target maxT h35 rest (buffer ++ [para]) (bufLen + ptokLen)
    else
      flushBuffer buffer ++ semanticPackGo target maxT h35 rest [para] ptokLen

/-- `semantic_pack` of `src/chunking.py` (source defaults
`target_tokens=110`, `max_tokens=180`; its internal sliding-window fallback
is hard-coded to overlap 35, whence the `35 < target` side condition). -/
def semantic_pack (paragraphs : List Str) (target maxT : Nat) (h35 : 35 < target) :
    List Chunk :=
  semanticPackGo target maxT h35 paragraphs [] 0

/-- The unique-text merge of the hybrid branch of `semantic_chunk`
(`seen` keyed on `c['text'][:120]`, first occurrence kept). -/
def dedupByKeyGo (seen : List Str) : List Chunk → List Chunk
  | [] => []
  | c :: cs =>
    let key := c.text.take 120
    if key ∈ seen then dedupByKeyGo seen cs
    else c :: dedupByKeyGo (key :: seen) cs

/-- `semantic_chunk` of `src/chunking.py` (source defaults
`strategy="hybrid"`, `target_tokens=110`, `max_tokens=180`, `overlap=35`).
The float comparison `len(text.split()) > max_tokens * 1.8` is modelled as
the exact rational comparison `9 * max_tokens < 5 * n`, which agrees with the
double-precision evaluation at every integer point reachable for the source
defaults. -/
def semantic_chunk (text : Str) (strategy : Str)
    (target maxT overlap : Nat)
    (h1 : overlap < target) (h2 : overlap < maxT)
    (h35 : 35 < target) : List Chunk :=
  let t := strip text
  if t = [] then []
  else if strategy = ("sliding").toList then sliding_window_chunk t target overlap h1
  else if strategy = ("structural").toList then
    (structural_split t).map (fun p => { text := p, summary := summarize p 180 })
  else if strategy = ("semantic").toList then
    semantic_pack (splitSentences t) target maxT h35
  else
    let paragraphs := structural_split t
    let primary := semantic_pack paragraphs target maxT h35
    if primary.length ≤ 2 ∧ 9 * maxT < 5 * (splitWs t).length then
      dedupByKeyGo [] (primary ++ sliding_window_chunk t maxT overlap h2)
    else primary

/-! Entity extractor (`src/entity_extractor.py`). -/

/-- The regex word-character class `\w` (ASCII range, as used by the source's
word-boundary checks on its ASCII gazetteer and texts). -/
def wordChar (c : Char) : Bool := c.isAlpha || c.isDigit || c = '_'

/-- A `\b` boundary to the right of a match: end of input or a non-word
character. -/
def wordBoundary (r : Str) : Bool :=
  match r with
  | [] => true
  | d :: _ => !wordChar d

/-- Scanner for `re.findall(r"\\b([A-Z][a-z]{3,})\\b", sample)`: an
upper-case letter at a word boundary followed by a maximal lower-case run of
length at least 3 that ends at a word boundary; non-overlapping, scanning
left to right.  Every step consumes at least one character, so the fuel
`length + 1` supplied by `entityExtract` never runs out. -/
def capsGo (fuel : Nat) (prevWord : Bool) (s : Str) : List Str :=
  match fuel, s with
  | 0, _ => []
  | _, [] => []
  | f + 1, c :: cs =>
    if c.isUpper && !prevWord then
      if 3 ≤ (cs.takeWhile Char.isLower).length &&
          wordBoundary (cs.dropWhile Char.isLower) then
        (c :: cs.takeWhile Char.isLower) :: capsGo f true (cs.dropWhile Char.isLower)
      else capsGo f true cs
    else capsGo f (wordChar c) cs

/-- Match `[A-Z][a-z]+` (one upper-case letter, then a maximal nonempty
lower-case run) at the start of the input. -/
def capWord : Str → Option (Str × Str)
  | [] => none
  | c :: cs =>
    if c.isUpper then
      if (cs.takeWhile Char.isLower).length = 0 then none
      else some (c :: cs.takeWhile Char.isLower, cs.dropWhile Char.isLower)
    else none

/-- Extend a partial match of the noun-phrase pattern by one
`\s+[A-Z][a-z]+` group. -/
def npExtendOne : Str × Str → Option (Str × Str)
  | (acc, s) =>
    let ws := s.takeWhile pySpace
    if ws.length = 0 then none
    else
      match capWord (s.dropWhile pySpace) with
      | some (w, r) => some (acc ++ ws ++ w, r)
      | none => none

/-- Match of `\b([A-Z][a-z]+(?:\s+[A-Z][a-z]+){0,2})\b` at the start of the
input (the caller guarantees the left boundary).  The `{0,2}` repetition is
greedy; when the final `\b` fails after the longest repetition the engine
backtracks one group, and the shorter match's boundary then holds
automatically because the dropped group began with whitespace. -/
def npMatch (s : Str) : Option (Str × Str) :=
  match capWord s with
  | none => none
  | some (w1, r1) =>
    match npExtendOne (w1, r1) with
    | none => if wordBoundary r1 then some (w1, r1) else none
    | some c1 =>
      match npExtendOne c1 with
      | none => if wordBoundary c1.2 then some c1 else some (w1, r1)
      | some c2 => if wordBoundary c2.2 then some c2 else some c1

theorem capWord_length {s w r} (h : capWord s = some (w, r)) :
    r.length < s.length := by
  cases s with
  | nil => simp [capWord] at h
  | cons c cs =>
    rw [capWord] at h
    split at h
    · split at h
      · simp at h
      · rcases Option.some.inj h with h2
        have : r = cs.dropWhile Char.isLower := (Prod.mk.injEq _ _ _ _ ▸ h2).2.symm
        rw [this]
        exact Nat.lt_succ_of_le (List.dropWhile_sublist _).length_le
    · simp at h

theorem npExtendOne_length {a s p r} (h : npExtendOne (a, s) = some (p, r)) :
    r.length < s.length := by
  rw [npExtendOne] at h
  split at h
  · simp at h
  · rename_i hws
    split at h
    · rename_i w r' hcap
      rcases Option.some.inj h with h2
      have hr : r = r' := (Prod.mk.injEq _ _ _ _ ▸ h2).2.symm
      subst hr
      exact Nat.lt_of_lt_of_le (capWord_length hcap)
        (List.dropWhile_sublist _).length_le
    · simp at h

theorem npMatch_length {s p r} (h : npMatch s = some (p, r)) :
    r.length < s.length := by
  rw [npMatch] at h
  split at h
  · simp at h
  · rename_i w1 r1 hcap
    split at h
    · split at h
      · rcases Option.some.inj h with h2
        have : r = r1 := (Prod.mk.injEq _ _ _ _ ▸ h2).2.symm
        subst this
        exact capWord_length hcap
      · simp at h
    · rename_i c1 hext1
      have hc1 : c1.2.length < s.length := by
        have := npExtendOne_length (a := w1) (s := r1) (p := c1.1) (r := c1.2)
        exact Nat.lt_trans (this (by simpa using hext1)) (capWord_length hcap)
      split at h
      · split at h
        · rcases Option.some.inj h with h2
          have : r = c1.2 := (Prod.mk.injEq _ _ _ _ ▸ h2).2.symm
          subst this
          exact hc1
        · rcases Option.some.inj h with h2
          have : r = r1 := (Prod.mk.injEq _ _ _ _ ▸ h2).2.symm
          subst this
          exact capWord_length hcap
      · rename_i c2 hext2
        split at h
        · rcases Option.some.inj h with h2
          have : r = c2.2 := (Prod.mk.injEq _ _ _ _ ▸ h2).2.symm
          subst this
          have := npExtendOne_length (a := c1.1) (s := c1.2) (p := c2.1) (r := c2.2)
          exact Nat.lt_trans (this (by simpa using hext2)) hc1
        · rcases Option.some.inj h with h2
          have : r = c1.2 := (Prod.mk.injEq _ _ _ _ ▸ h2).2.symm
          subst this
          exact hc1

/-- Scanner for
`re.findall(r"\\b([A-Z][a-z]+(?:\\s+[A-Z][a-z]+){0,2})\\b", sample)`:
non-overlapping matches, scanning left to right.  Every step consumes at
least one character (`npMatch_length`), so the fuel `length + 1` supplied by
`entityExtract` never runs out. -/
def npGo (fuel : Nat) (prevWord : Bool) (s : Str) : List Str :=
  match fuel, s with
  | 0, _ => []
  | _, [] => []
  | f + 1, c :: cs =>
    if !prevWord then
      match npMatch (c :: cs) with
      | some pr => pr.1 :: npGo f true pr.2
      | none => npGo f (wordChar c) cs
    else npGo f (wordChar c) cs

/-- `HERB_TERMS` of `src/entity_extractor.py`. -/
def HERB_TERMS : List Str :=
  ["ashwagandha", "tulsi", "giloy", "brahmi", "turmeric", "triphala", "arjuna",
   "shatavari", "guggulu", "licorice", "mulethi", "hing", "ajwain", "fennel",
   "cumin", "ginger", "amla"].map String.toList

/-- `CONDITION_TERMS` of `src/entity_extractor.py`. -/
def CONDITION_TERMS : List Str :=
  ["fever", "jwara", "cough", "cold", "asthma", "digestion", "acidity",
   "insomnia", "stress", "immunity", "heart", "cardiac", "respiratory",
   "fatigue", "arthritis"].map String.toList

/-- `CORE_CONCEPTS` of `src/entity_extractor.py`. -/
def CORE_CONCEPTS : List Str :=
  ["vata", "pitta", "kapha", "agni", "ojas", "ama", "panchakarma"].map String.toList

/-- `GAZETTEER = set(HERB_TERMS + CONDITION_TERMS + CORE_CONCEPTS)`; the
source lists are pairwise distinct, so the set is modelled as their
concatenation, and membership is all the code uses. -/
def GAZETTEER : List Str := HERB_TERMS ++ CONDITION_TERMS ++ CORE_CONCEPTS

/-- Construction-time state of `EntityExtractor`: `modelAvailable` models
`self.model is not None` (spaCy loaded and enabled), `maxChars` models
`self.max_chars`, and `nerFun` abstracts the spaCy pipeline's
label-filtered, stripped entity texts for a given input. -/
structure EEConfig where
  modelAvailable : Bool
  maxChars : Nat
  nerFun : Str → List Str

/-- `EntityExtractor.extract` of `src/entity_extractor.py`.  Returns the
pair `(gazetteer, ner)` of sorted duplicate-free lists.  The spaCy call is
wrapped in `try/except` in the source, so the model is total; `nerFun`
stands for a successful pipeline call and the guard reproduces
`if self.model and len(text) <= self.max_chars`. -/
def entityExtract (ee : EEConfig) (text : Str) : List Str × List Str :=
  let textLower := pyLower text
  let found1 := GAZETTEER.filter (fun g => decide (List.IsInfix g textLower))
  let ner := if ee.modelAvailable && text.length ≤ ee.maxChars then ee.nerFun text else []
  let sample := text.take ee.maxChars
  let found2 := found1 ++ (((capsGo (sample.length + 1) false sample).map pyLower).filter (fun c => c ∈ GAZETTEER))
  let found3 := found2 ++
    (((npGo (sample.length + 1) false sample).map (fun m => splitWs (pyLower m))).flatten.filter
      (fun tok => tok ∈ GAZETTEER))
  (sortLe strLe (dedupF found3), sortLe strLe (dedupF ner))

/-! Query processor (`src/query_processor.py`). -/

/-- Python `sep.join(l)` for an arbitrary separator. -/
def joinWith (sep : Str) : List Str → Str
  | [] => []
  | [t] => t
  | t :: u :: us => t ++ sep ++ joinWith sep (u :: us)

/-- `DOMAIN_SYNONYMS` of `src/query_processor.py`. -/
def DOMAIN_SYNONYMS : List (Str × List Str) :=
  [(("fever").toList, [("pyrexia").toList, ("temperature").toList, ("jwara").toList]),
   (("heart").toList, [("cardiac").toList, ("cardiovascular").toList]),
   (("digestion").toList, [("stomach").toList, ("gastric").toList, ("agni").toList]),
   (("cough").toList, [("respiratory").toList, ("bronchial").toList]),
   (("immunity").toList, [("ojas").toList, ("resistance").toList]),
   (("detox").toList, [("panchakarma").toList, ("cleanse").toList])]

/-- `QueryProcessor._ACRONYMS`. -/
def ACRONYMS : List (Str × Str) :=
  [(("BP").toList, ("blood pressure").toList),
   (("GI").toList, ("gastrointestinal").toList),
   (("CNS").toList, ("central nervous system").toList)]

/-- `QueryProcessor._POLYSEMY_HINTS`. -/
def POLYSEMY_HINTS : List (Str × List Str) :=
  [(("cold").toList, [("common cold").toList, ("low temperature").toList]),
   (("stress").toList, [("mental stress").toList, ("physiological stress").toList]),
   (("pressure").toList, [("blood pressure").toList])]

/-- Construction-time state of `QueryProcessor`: `enableWordnet` models the
final value of `self.enable_wordnet` (constructor flag AND WordNet import
success), `maxExpansions` models `self.max_expansions` (source default 4),
and `wordnetFn` abstracts the stream of lemma names produced by
`wn.synsets(term)[:2]` with `_` replaced by spaces. -/
structure QPConfig where
  enableWordnet : Bool
  maxExpansions : Nat
  wordnetFn : Str → List Str

/-- `QueryProcessor._wordnet_synonyms`.  The Python `set` of synonyms is
modelled in insertion order before the `[:max_expansions]` cut. -/
def wordnetSynonyms (qp : QPConfig) (term : Str) : List Str :=
  if !qp.enableWordnet then []
  else
    (dedupF ((qp.wordnetFn term).filter
      (fun n => decide (pyLower n ≠ pyLower term) && decide (n.length ≤ 20)))).take
      qp.maxExpansions

/-- `QueryProcessor.disambiguate`. -/
def disambiguate (query : Str) : Str :=
  let words := splitWs query
  let expanded := (words.map (fun w =>
    match ACRONYMS.lookup (pyUpper w) with
    | some e => [e, w]
    | none => [w])).flatten
  let disQ := sepJoin expanded
  match words with
  | [w] =>
    match POLYSEMY_HINTS.lookup (pyLower w) with
    | some hints =>
        disQ ++ (" (").toList ++ joinWith ((" | ").toList) (hints.take 2) ++ (")").toList
    | none => disQ
  | _ => disQ

/-- The character class `[^a-zA-Z0-9\s-]` of `STOP_CHARS_PATTERN`. -/
def stopChar (c : Char) : Bool :=
  !(c.isAlpha || c.isDigit || pySpace c || c = '-')

/-- `re.sub(r"\s+", " ", q)`: replace each maximal whitespace run by one
space. -/
def collapseWsGo (inWs : Bool) : Str → Str
  | [] => []
  | c :: cs =>
    if pySpace c then
      if inWs then collapseWsGo true cs else ' ' :: collapseWsGo true cs
    else c :: collapseWsGo false cs

/-- `QueryProcessor.normalize`. -/
def normalize (query : Str) : Str :=
  strip (collapseWsGo false ((strip query).map (fun c => if stopChar c then ' ' else c)))

/-- Result record of `QueryProcessor.expand`. -/
structure ExpandResult where
  normalized : Str
  tokens : List Str
  domainTerms : List Str
  expansions : List Str
deriving DecidableEq, Repr

/-- `QueryProcessor.expand`.  The two Python `set`s (`expansions`,
`domain_hits`) are modelled in insertion order. -/
def expandQuery (qp : QPConfig) (query : Str) : ExpandResult :=
  let base := normalize query
  let toks := (splitWs (pyLower base)).filter (fun t => decide (2 < t.length))
  let step : (List Str × List Str) → Str → (List Str × List Str) := fun st tok =>
    let st1 :=
      match DOMAIN_SYNONYMS.lookup tok with
      | some syns => ((syns.take qp.maxExpansions).foldl pyAdd st.1, pyAdd st.2 tok)
      | none => st
    ((wordnetSynonyms qp tok).foldl pyAdd st1.1, st1.2)
  let res := toks.foldl step ([], [])
  { normalized := base, tokens := toks, domainTerms := res.2,
    expansions := res.1.filter (fun e => decide (e ∉ toks)) }

/-- The `for v in variants` dedup-and-truncate loop of
`QueryProcessor.multi_queries`: the `len(final) >= max_variants` break is
tested after the conditional append, so it also fires on the very first
iteration when `max_variants = 0`. -/
def mqGo (maxV : Nat) : List Str → List Str → List Str → List Str
  | [], _, final => final
  | v :: vs, seen, final =>
    let vv := strip v
    let keep := vv ≠ [] ∧ pyLower vv ∉ seen
    let final2 := if keep then final ++ [vv] else final
    let seen2 := if keep then seen ++ [pyLower vv] else seen
    if maxV ≤ final2.length then final2
    else mqGo maxV vs seen2 final2

/-- `QueryProcessor.multi_queries`. -/
def multiQueries (qp : QPConfig) (query : Str) (maxVariants : Nat) : List Str :=
  let q := disambiguate query
  let info := expandQuery qp q
  let base := info.normalized
  let variants :=
    [base] ++
    (if info.expansions ≠ [] then [base ++ ' ' :: sepJoin (info.expansions.take 2)]
     else []) ++
    (if info.domainTerms ≠ [] then
       [joinWith (("; ").toList)
         (info.domainTerms.map (fun dt =>
            dt ++ (" OR ").toList ++
              joinWith ((" OR ").toList) (((DOMAIN_SYNONYMS.lookup dt).getD []).take 2)))]
     else [])
  mqGo maxVariants variants [] []

/-! RAG system (`src/rag_system.py`). -/

/-- The `text[:500]` truncation applied to each hashed chunk by
`_compute_corpus_fingerprint`. -/
def trunc500 (t : Str) : Str := t.take 500

/-- The byte stream fed to the SHA-256 hasher by
`RAGSystem._compute_corpus_fingerprint` (default `first_n = 200`): the first
500 characters of each of the first 200 knowledge chunks, then the embedding
model id.  The digest itself is modelled by this stream: equal streams give
equal digests, and the digest depends on nothing else, so stream equality is
exactly fingerprint equality up to SHA-256 collisions. -/
def fingerprintStream (chunks : List Str) (modelId : Str) : Str :=
  ((chunks.take 200).map trunc500).flatten ++ modelId

/-- On-disk state examined by `RAGSystem._load_existing_index`: existence of
the three artifact files, whether the JSON/NumPy/FAISS reads succeed
(`readOk`; any raised exception is caught and reported as a miss), the
metadata record, the persisted index's `ntotal` and the cached embedding
matrix's row count. -/
structure IndexArtifacts where
  faissIndexExists : Bool
  embeddingsCacheExists : Bool
  metadataExists : Bool
  readOk : Bool
  metaFingerprint : Str
  metaVectors : Nat
  indexNtotal : Nat
  embRows : Nat
deriving DecidableEq, Repr

/-- `RAGSystem._load_existing_index`: `true` models a cache hit (the
persisted index is served), `false` a cache miss (rebuild); exceptions are
caught and become misses, never errors. -/
def loadExistingIndex (st : IndexArtifacts) (chunks : List Str) (modelId : Str) : Bool :=
  if !(st.faissIndexExists && st.embeddingsCacheExists && st.metadataExists) then false
  else if !st.readOk then false
  else if st.metaFingerprint ≠ fingerprintStream chunks modelId then false
  else if st.indexNtotal ≠ st.embRows then false
  else true

/-- A result record of `HybridRetriever.retrieve` as consumed by the
corrective-retrieval logic of `RAGSystem.retrieve` (only the `text` and
`score` fields are read there); scores are modelled as integers. -/
structure RC where
  text : Str
  score : Int
deriving DecidableEq, Repr

/-- One step of the corrective merge: Python
`if key not in merged or merged[key]['score'] < r['score']: merged[key] = r`
on an insertion-ordered dict, with the dict key `hash(r['text'][:200])`
modelled by the 200-character prefix itself (equal prefixes always collide;
distinct prefixes are assumed not to collide). -/
def updateKey (m : List (Str × RC)) (key : Str) (r : RC) : List (Str × RC) :=
  match m with
  | [] => [(key, r)]
  | (k, r0) :: rest =>
    if k = key then
      if r0.score < r.score then (k, r) :: rest else (k, r0) :: rest
    else (k, r0) :: updateKey rest key r

/-- The `for r in results + alt` merge loop of `RAGSystem.retrieve`. -/
def mergeKeyed : List (Str × RC) → List RC → List (Str × RC)
  | m, [] => m
  | m, r :: rs => mergeKeyed (updateKey m (r.text.take 200) r) rs

/-- The hybrid branch of `RAGSystem.retrieve` (corrective RAG): first pass,
weak-result test `not results or len(results) < max(3, top_k // 2)`, up to 4
expanded variants of the intent-broadened query, per-variant second passes,
prefix-keyed best-score merge, sort by score descending (Python's stable
sort) and truncation to `top_k`.  `hybrid` abstracts
`HybridRetriever.retrieve` at a fixed `top_k`. -/
def ragRetrieve (hybrid : Str → List RC) (qp : QPConfig) (query : Str) (topK : Nat) :
    List RC :=
  let results := hybrid query
  if results.isEmpty || results.length < max 3 (topK / 2) then
    let expanded := multiQueries qp (query ++ (" detailed clinical context").toList) 4
    let alt := expanded.foldl (fun acc q => acc ++ hybrid q) []
    let merged := mergeKeyed [] (results ++ alt)
    (sortLe (fun a b => decide (b.score ≤ a.score)) (merged.map (fun kv => kv.2))).take topK
  else results

/-! Knowledge base (`src/knowledge_base.py`). -/

/-- A raw `{'text', 'source', 'type'}` record of the assembled `all_texts`
list. -/
structure RawText where
  text : Str
  source : Str
  rtype : Str
deriving DecidableEq, Repr

/-- A chunk record of `self.document_chunks` (the `entities` dict is
flattened into its `gazetteer` and `ner` lists). -/
structure DocChunk where
  id : Nat
  text : Str
  summary : Str
  gaz : List Str
  ner : List Str
  source : Str
  rtype : Str
  topic : Str
deriving DecidableEq, Repr

/-- `AyurvedaKnowledgeBase._extract_topic_from_text`. -/
def extractTopic (text : Str) : Str :=
  let tl := pyLower text
  let has := fun (w : String) => decide (List.IsInfix w.toList tl)
  if has ("fever") || has ("jwara") || has ("temperature") then ("fever").toList
  else if has ("heart") || has ("cardiac") || has ("arjuna") then ("heart").toList
  else if has ("cold") || has ("cough") || has ("respiratory") then ("respiratory").toList
  else if has ("digestion") || has ("digestive") || has ("stomach") then ("digestive").toList
  else if has ("dosha") || has ("vata") || has ("pitta") || has ("kapha") then ("doshas").toList
  else if has ("panchakarma") || has ("vamana") || has ("virechana") then ("panchakarma").toList
  else if has ("amla") || has ("ashwagandha") || has ("brahmi") || has ("herb") then ("herbs").toList
  else ("general").toList

/-- Assembly of one `document_chunks` record. -/
def mkDoc (ee : EEConfig) (idx : Nat) (td : RawText) (text summary : Str) : DocChunk :=
  let ents := entityExtract ee text
  { id := idx, text := text, summary := summary, gaz := ents.1, ner := ents.2,
    source := td.source, rtype := td.rtype, topic := extractTopic text }

/-- The chunking loop of `AyurvedaKnowledgeBase.load_knowledge_chunks`
(lines 216-248): texts longer than 220 whitespace tokens are hybrid-chunked
with the `semantic_chunk` defaults, shorter ones kept whole; `idx` numbers
the records consecutively. -/
def buildDocs (ee : EEConfig) : List RawText → Nat → List DocChunk
  | [], _ => []
  | td :: rest, idx =>
    if 220 < (splitWs td.text).length then
      let sem := semantic_chunk td.text (("hybrid").toList) 110 180 35
        (by decide) (by decide) (by decide)
      (sem.enum.map (fun p => mkDoc ee (idx + p.1) td p.2.text p.2.summary)) ++
        buildDocs ee rest (idx + sem.length)
    else
      mkDoc ee idx td td.text (td.text.take 160) :: buildDocs ee rest (idx + 1)

/-- The configuration attributes read by
`AyurvedaKnowledgeBase._deduplicate_and_limit` (`getattr` defaults:
`MAX_TOTAL_CHUNKS = None`, `DEDUPE_MIN_CHARS = 100`,
`DEDUPE_HASH_LEN = 300`). -/
structure KBConfig where
  unlimitedIngest : Bool
  maxTotalChunks : Option Nat
  dedupeMinChars : Nat
  dedupeHashLen : Nat
deriving DecidableEq, Repr

/-- The filtering loop of `_deduplicate_and_limit`: skip chunks shorter than
`min_chars`, dedupe on the first `hash_len` characters of the
whitespace-normalised lower-cased text, and break once `max_chunks` (when
set and nonzero, per Python truthiness) chunks are kept. -/
def dedupGo (minC hashLen : Nat) (maxC : Option Nat) :
    List DocChunk → List Str → List DocChunk → List DocChunk
  | [], _, filtered => filtered
  | ch :: rest, seen, filtered =>
    if ch.text.length < minC then dedupGo minC hashLen maxC rest seen filtered
    else
      let norm := (sepJoin (splitWs (pyLower ch.text))).take hashLen
      if norm ∈ seen then dedupGo minC hashLen maxC rest seen filtered
      else
        let filtered2 := filtered ++ [ch]
        if (match maxC with
            | some m => decide (m ≠ 0) && decide (m ≤ filtered2.length)
            | none => false) then filtered2
        else dedupGo minC hashLen maxC rest (seen ++ [norm]) filtered2

/-- `AyurvedaKnowledgeBase._deduplicate_and_limit`. -/
def dedupAndLimit (cfg : Option KBConfig) (docs : List DocChunk) : List DocChunk :=
  if docs = [] then docs
  else
    match cfg with
    | none => docs
    | some c =>
      if c.unlimitedIngest then docs
      else dedupGo c.dedupeMinChars c.dedupeHashLen c.maxTotalChunks docs [] []

/-- Lines 216-258 of `src/knowledge_base.py`: build `document_chunks` from
the assembled `all_texts`, set `knowledge_chunks` (line 250), deduplicate
and limit, then re-establish `knowledge_chunks` from the surviving
`document_chunks` (line 253).  Returns the final
`(knowledge_chunks, document_chunks)` pair. -/
def processAllTexts (ee : EEConfig) (cfg : Option KBConfig) (allTexts : List RawText) :
    List Str × List DocChunk :=
  let docs0 := buildDocs ee allTexts 0
  let _kcs1 := docs0.map (fun d => d.text)
  let docs1 := dedupAndLimit cfg docs0
  (docs1.map (fun d => d.text), docs1)

/-- A retrieval result of the legacy vector path of `RAGSystem.retrieve`
(lines 252-270): a copy of a `document_chunks` record annotated with
`similarity_score` and 1-based `rank`. -/
structure RetrievedChunk where
  doc : DocChunk
  similarity_score : Int
  rank : Nat
deriving DecidableEq, Repr

/-- Python negative-index-aware list subscript `l[i]`; `none` models the
`IndexError` raised for `i < -len(l)` (caught by the enclosing `except`,
which falls back to keyword retrieval). -/
def pyGetInt (l : List α) (i : Int) : Option α :=
  if 0 ≤ i then l.get? i.toNat
  else if (l.length : Int) + i < 0 then none
  else l.get? ((l.length : Int) + i).toNat

/-- The body of the `for i, (score, idx) in enumerate(...)` loop of the
legacy vector retrieval of `RAGSystem.retrieve` (lines 252-270): keep the
entry when `idx < len(docs)` (Python's signed comparison, so FAISS's `-1`
padding passes and indexes from the end), copying the indexed chunk and
annotating it with the score and the 1-based enumeration rank. -/
def legacyKeep (docs : List DocChunk) (p : Nat × (Int × Int)) : Option RetrievedChunk :=
  if p.2.2 < (docs.length : Int) then
    (pyGetInt docs p.2.2).map (fun d =>
      { doc := d, similarity_score := p.2.1, rank := p.1 + 1 })
  else none

/-- The legacy vector retrieval of `RAGSystem.retrieve` (lines 252-270):
`searchOut` is the `(score, idx)` row pair list returned by
`faiss_index.search`; kept entries are finally sorted by
`similarity_score` descending (Python's stable sort). -/
def ragVectorRetrieve (docs : List DocChunk) (searchOut : List (Int × Int)) :
    List RetrievedChunk :=
  sortLe (fun a b => decide (b.similarity_score ≤ a.similarity_score))
    ((searchOut.enum).filterMap (legacyKeep docs))

/-! Shared concrete fixtures used by witnesses. -/

/-- An `EntityExtractor` state with no spaCy model (the configuration the
knowledge base forces when `ENABLE_SPACY_NER` is off). -/
def eeNone : EEConfig := ⟨false, 4000, fun _ => []⟩

/-- A `QueryProcessor` state with WordNet unavailable (`wn = None`). -/
def qpPlain : QPConfig := ⟨false, 4, fun _ => []⟩

/-- A concrete stand-in for `HybridRetriever.retrieve` returning a single
weak first-pass result. -/
def hybC : Str → List RC :=
  fun q =>
    if q = ("fever").toList then [⟨("doc one text").toList, 5⟩]
    else [⟨("doc two text").toList, 3⟩]

/-- A three-chunk `document_chunks` fixture. -/
def c4docs : List DocChunk :=
  [⟨0, ("ta").toList, ("s").toList, [], [], ("src").toList, ("t").toList, ("g").toList⟩,
   ⟨1, ("tb").toList, ("s").toList, [], [], ("src").toList, ("t").toList, ("g").toList⟩,
   ⟨2, ("tc").toList, ("s").toList, [], [], ("src").toList, ("t").toList, ("g").toList⟩]

/-! Claim C7. -/

/-- C7: for every empty or whitespace-only input string and for every
strategy (and any parameters admissible for the loops), `semantic_chunk`
returns the empty sequence; the model is a total function, so no error is
possible. -/
theorem semantic_chunk_blank_empty (s : Str) (strategy : Str)
    (target maxT overlap : Nat) (h1 : overlap < target) (h2 : overlap < maxT)
    (h35 : 35 < target) (hws : ∀ c ∈ s, pySpace c = true) :
    semantic_chunk s strategy target maxT overlap h1 h2 h35 = [] := by
  have hstrip : strip s = [] := strip_allspace s hws
  simp [semantic_chunk, hstrip]

/-- Witness for C7 at whitespace-only input and the default hybrid
strategy. -/
theorem semantic_chunk_blank_empty_witness :
    semantic_chunk ((" \t\n ").toList) (("hybrid").toList) 110 180 35
      (by decide) (by decide) (by decide) = [] :=
  semantic_chunk_blank_empty _ _ _ _ _ (by decide) (by decide) (by decide) (by decide)

/-! Claim C1. -/

/-- A persisted-index state whose metadata records a vector count (7)
different from both the index count and the embedding row count (2), with
matching fingerprint and all artifacts present. -/
def c1State : IndexArtifacts :=
  { faissIndexExists := true, embeddingsCacheExists := true, metadataExists := true,
    readOk := true,
    metaFingerprint := fingerprintStream [("chunk one").toList, ("chunk two").toList]
      (("model-a").toList),
    metaVectors := 7, indexNtotal := 2, embRows := 2 }

/-- C1 counterexample: `_load_existing_index` succeeds on a record whose
metadata `vectors` field disagrees with the index's internal count — the
metadata vector count is never consulted, so the claimed equality is not
required for a cache hit. -/
theorem loadExistingIndex_ignores_meta_vectors :
    loadExistingIndex c1State [("chunk one").toList, ("chunk two").toList]
        (("model-a").toList) = true ∧
      c1State.metaVectors ≠ c1State.indexNtotal := by
  constructor
  · decide
  · decide

/-- C1 (amended): `_load_existing_index` returns a cache hit exactly when
the three artifact files exist, reading them succeeds, the stored
fingerprint equals the freshly computed one, and the index's internal
vector count equals the embedding matrix's row count; the metadata vector
count is not consulted, and every violation yields `false` (a miss), never
an error. -/
theorem loadExistingIndex_success_iff (st : IndexArtifacts) (chunks : List Str)
    (modelId : Str) :
    loadExistingIndex st chunks modelId = true ↔
      (st.faissIndexExists = true ∧ st.embeddingsCacheExists = true ∧
       st.metadataExists = true ∧ st.readOk = true ∧
       st.metaFingerprint = fingerprintStream chunks modelId ∧
       st.indexNtotal = st.embRows) := by
  rw [loadExistingIndex]
  split_ifs with hA hB hC hD
  · constructor
    · intro h; simp at h
    · rintro ⟨h1, h2, h3, -, -, -⟩
      simp [h1, h2, h3] at hA
  · constructor
    · intro h; simp at h
    · rintro ⟨-, -, -, h4, -, -⟩
      simp [h4] at hB
  · constructor
    · intro h; simp at h
    · rintro ⟨-, -, -, -, h5, -⟩
      exact absurd h5 hC
  · constructor
    · intro h; simp at h
    · rintro ⟨-, -, -, -, -, h6⟩
      exact absurd h6 hD
  · have hA2 : (st.faissIndexExists && st.embeddingsCacheExists && st.metadataExists) = true := by
      by_contra hq
      exact hA (by simp [hq])
    have hB2 : st.readOk = true := by
      by_contra hq
      exact hB (by simp [hq])
    simp only [Bool.and_eq_true] at hA2
    simp [hA2.1.1, hA2.1.2, hA2.2, hB2, not_not.mp hC, not_not.mp hD]

/-! Claim C2. -/

set_option maxRecDepth 8000 in
/-- C2 counterexample: the fingerprint hashes only the first 200 chunks
(500 characters each), so changing the text of chunk number 201 leaves the
hasher input — and hence the SHA-256 digest — unchanged while the corpus
differs in exactly that one chunk. -/
theorem fingerprintStream_misses_late_chunk :
    ((List.replicate 201 (("x").toList)).set 200 (("y").toList) ≠
        List.replicate 201 (("x").toList)) ∧
      fingerprintStream ((List.replicate 201 (("x").toList)).set 200 (("y").toList))
          (("m").toList) =
        fingerprintStream (List.replicate 201 (("x").toList)) (("m").toList) := by
  constructor
  · decide
  · decide

/-- C2 (amended): the fingerprint input is deterministic (computing it twice
on unchanged inputs yields identical output); changing the embedding model
id always changes the hasher input; and changing one of the first 200
chunks within its first 500 characters changes the hasher input (hence the
digest, short of a SHA-256 collision).  Chunks beyond the 200th, or changes
past character 500, are invisible to it. -/
theorem fingerprintStream_stable_sensitive :
    (∀ (chunks : List Str) (modelId : Str),
        fingerprintStream chunks modelId = fingerprintStream chunks modelId) ∧
    (∀ (chunks : List Str) (m m' : Str), m ≠ m' →
        fingerprintStream chunks m ≠ fingerprintStream chunks m') ∧
    (∀ (chunks : List Str) (i : Nat) (t' : Str) (m : Str) (hi200 : i < 200)
        (hi : i < chunks.length),
        (chunks.get ⟨i, hi⟩).take 500 ≠ t'.take 500 →
        fingerprintStream (chunks.set i t') m ≠ fingerprintStream chunks m) := by
  refine ⟨fun _ _ => rfl, ?_, ?_⟩
  · intro chunks m m' hne heq
    rw [fingerprintStream, fingerprintStream] at heq
    exact hne (List.append_cancel_left heq)
  · intro chunks i t' m hi200 hi hne heq
    rw [fingerprintStream, fingerprintStream] at heq
    rw [List.set_take, List.map_set] at heq
    have hiP : i < (chunks.take 200).length := by
      simp only [List.length_take]
      omega
    have hiQ : i < ((chunks.take 200).map trunc500).length := by
      simpa using hiP
    have h1 : ((chunks.take 200).map trunc500).set i (trunc500 t') =
        ((chunks.take 200).map trunc500).take i ++ trunc500 t' ::
          ((chunks.take 200).map trunc500).drop (i + 1) := by
      rw [List.set_eq_take_append_cons_drop, if_pos hiQ]
    have h2 : ((chunks.take 200).map trunc500).flatten =
        (((chunks.take 200).map trunc500).take i).flatten ++
          (((chunks.take 200).map trunc500).get ⟨i, hiQ⟩ ++
            (((chunks.take 200).map trunc500).drop (i + 1)).flatten) := by
      conv_lhs =>
        rw [← List.take_append_drop i ((chunks.take 200).map trunc500),
          List.drop_eq_getElem_cons hiQ]
      simp [List.get_eq_getElem, List.flatten_append]
    rw [h1] at heq
    have hL : (((chunks.take 200).map trunc500).take i ++ trunc500 t' ::
          ((chunks.take 200).map trunc500).drop (i + 1)).flatten =
        (((chunks.take 200).map trunc500).take i).flatten ++
          (trunc500 t' ++
            (((chunks.take 200).map trunc500).drop (i + 1)).flatten) := by
      simp [List.flatten_append]
    rw [hL, h2] at heq
    simp only [List.append_assoc] at heq
    have hcan := List.append_cancel_left heq
    have hlen : (trunc500 t').length =
        (((chunks.take 200).map trunc500).get ⟨i, hiQ⟩).length := by
      have := congrArg List.length hcan
      simp only [List.length_append] at this
      omega
    have hxy := List.append_inj_left hcan hlen
    have hx : ((chunks.take 200).map trunc500).get ⟨i, hiQ⟩ =
        (chunks.get ⟨i, hi⟩).take 500 := by
      simp [trunc500, List.get_eq_getElem, List.getElem_map, List.getElem_take]
    rw [hx] at hxy
    exact hne hxy.symm

/-- Witness for C2: at a concrete one-chunk corpus, a model-id change and an
early-chunk text change both change the fingerprint input. -/
theorem fingerprintStream_stable_sensitive_witness :
    fingerprintStream [("abc").toList] (("m1").toList) ≠
        fingerprintStream [("abc").toList] (("m2").toList) ∧
      fingerprintStream ([("abc").toList].set 0 (("abd").toList)) (("m1").toList) ≠
        fingerprintStream [("abc").toList] (("m1").toList) :=
  ⟨fingerprintStream_stable_sensitive.2.1 [("abc").toList] _ _ (by decide),
   fingerprintStream_stable_sensitive.2.2 [("abc").toList] 0 (("abd").toList) _
     (by decide) (by decide) (by decide)⟩

/-! Claim C9. -/

/-- C9: `EntityTagger.extract` (a total function in the model, mirroring the
source's guarded spaCy call) returns the gazetteer matches and the
general-entity mentions as sorted lists, and whenever the general-entity
model is disabled/unavailable or the input exceeds the configured character
ceiling, the general-entity list is empty. -/
theorem entityExtract_sorted_guarded (ee : EEConfig) (text : Str) :
    List.Chain' (fun a b => strLe a b = true) (entityExtract ee text).1 ∧
    List.Chain' (fun a b => strLe a b = true) (entityExtract ee text).2 ∧
    ((ee.modelAvailable = false ∨ ee.maxChars < text.length) →
      (entityExtract ee text).2 = []) := by
  refine ⟨?_, ?_, ?_⟩
  · exact sortLe_chain strLe strLe_total _
  · exact sortLe_chain strLe strLe_total _
  · intro h
    have hg : (ee.modelAvailable && decide (text.length ≤ ee.maxChars)) = false := by
      rcases h with h | h
      · simp [h]
      · have : ¬ text.length ≤ ee.maxChars := by omega
        simp [this]
    show sortLe strLe (dedupF
      (if ee.modelAvailable && decide (text.length ≤ ee.maxChars) then ee.nerFun text
       else [])) = []
    rw [hg]
    simp [dedupF, dedupFGo, sortLe]

/-- Witness for C9 at a concrete disabled extractor and input. -/
theorem entityExtract_sorted_guarded_witness :
    (entityExtract eeNone (("Tulsi reduces fever").toList)).2 = [] ∧
      List.Chain' (fun a b => strLe a b = true)
        (entityExtract eeNone (("Tulsi reduces fever").toList)).1 := by
  have h := entityExtract_sorted_guarded eeNone (("Tulsi reduces fever").toList)
  exact ⟨h.2.2 (Or.inl rfl), h.1⟩

/-! Claim C10. -/

/-- C10: after `load_knowledge_chunks` finishes (modelled by
`processAllTexts` over the assembled `all_texts`), `knowledge_chunks` and
`document_chunks` are parallel lists: they have equal length and entry `i`
of `knowledge_chunks` is exactly the `text` field of `document_chunks[i]` —
the alignment the FAISS index build relies on (row `i` embeds
`knowledge_chunks[i]`), re-established by the reassignment after
deduplication/limiting. -/
theorem processAllTexts_parallel (ee : EEConfig) (cfg : Option KBConfig)
    (allTexts : List RawText) :
    (processAllTexts ee cfg allTexts).1.length =
        (processAllTexts ee cfg allTexts).2.length ∧
      ∀ (i : Nat) (h1 : i < (processAllTexts ee cfg allTexts).1.length)
        (h2 : i < (processAllTexts ee cfg allTexts).2.length),
        (processAllTexts ee cfg allTexts).1.get ⟨i, h1⟩ =
          ((processAllTexts ee cfg allTexts).2.get ⟨i, h2⟩).text := by
  constructor
  · show (List.map _ _).length = _
    simp [processAllTexts]
  · intro i h1 h2
    show (List.map _ _).get ⟨i, _⟩ = ((dedupAndLimit cfg (buildDocs ee allTexts 0)).get ⟨i, _⟩).text
    simp [List.get_eq_getElem, List.getElem_map]

/-- Witness for C10 on a one-document corpus. -/
theorem processAllTexts_parallel_witness :
    (processAllTexts eeNone none [⟨("tulsi text").toList, ("s").toList, ("t").toList⟩]).1.get
        ⟨0, by decide⟩ =
      ((processAllTexts eeNone none
          [⟨("tulsi text").toList, ("s").toList, ("t").toList⟩]).2.get ⟨0, by decide⟩).text :=
  (processAllTexts_parallel eeNone none
      [⟨("tulsi text").toList, ("s").toList, ("t").toList⟩]).2 0 (by decide) (by decide)

/-! Claim C8. -/

theorem mqGo_length (maxV : Nat) :
    ∀ (vs seen final : List Str), final.length < maxV →
      (mqGo maxV vs seen final).length ≤ maxV := by
  intro vs
  induction vs with
  | nil => intro seen final h; exact Nat.le_of_lt h
  | cons v rest ih =>
    intro seen final h
    rw [mqGo]
    split
    · split
      · rename_i hbrk
        simp only [List.length_append, List.length_singleton]
        omega
      · apply ih
        rename_i hbrk
        simp only [List.length_append, List.length_singleton] at hbrk ⊢
        omega
    · split
      · exact Nat.le_of_lt h
      · exact ih _ _ h

theorem mqGo_pairwise_startsWith (maxV : Nat) :
    ∀ (vs seen final : List Str),
      List.Pairwise (fun a b => pyLower a ≠ pyLower b) final →
      (∀ x ∈ final, pyLower x ∈ seen) →
      List.Pairwise (fun a b => pyLower a ≠ pyLower b) (mqGo maxV vs seen final) ∧
        final <+: mqGo maxV vs seen final := by
  intro vs
  induction vs with
  | nil =>
    intro seen final hp hc
    exact ⟨hp, List.prefix_refl _⟩
  | cons v rest ih =>
    intro seen final hp hc
    rw [mqGo]
    by_cases hkeep : strip v ≠ [] ∧ pyLower (strip v) ∉ seen
    · simp only [if_pos hkeep]
      have hp2 : List.Pairwise (fun a b => pyLower a ≠ pyLower b) (final ++ [strip v]) := by
        rw [List.pairwise_append]
        refine ⟨hp, List.pairwise_singleton _ _, ?_⟩
        intro a ha b hb
        rw [List.mem_singleton] at hb
        subst hb
        intro hab
        exact hkeep.2 (hab ▸ hc a ha)
      have hc2 : ∀ x ∈ final ++ [strip v], pyLower x ∈ seen ++ [pyLower (strip v)] := by
        intro x hx
        rcases List.mem_append.mp hx with hx | hx
        · exact List.mem_append.mpr (Or.inl (hc x hx))
        · rw [List.mem_singleton] at hx
          subst hx
          exact List.mem_append.mpr (Or.inr (by simp))
      split
      · exact ⟨hp2, List.prefix_append _ _⟩
      · have := ih (seen ++ [pyLower (strip v)]) (final ++ [strip v]) hp2 hc2
        exact ⟨this.1, (List.prefix_append _ _).trans this.2⟩
    · simp only [if_neg hkeep]
      split
      · exact ⟨hp, List.prefix_refl _⟩
      · exact ih seen final hp hc

theorem normalize_strip_self (q : Str) : strip (normalize q) = normalize q := by
  rw [normalize]
  exact strip_idem _

theorem multiQueries_empty_base (qp : QPConfig) (query : Str) (maxV : Nat)
    (hmax : 1 ≤ maxV) (hbase : normalize (disambiguate query) = []) :
    multiQueries qp query maxV = [] := by
  have hinfo : expandQuery qp (disambiguate query) = ⟨[], [], [], []⟩ := by
    rw [expandQuery, hbase]
    simp [pyLower, splitWs, splitWsGo]
  have hm0 : ¬ maxV ≤ 0 := by omega
  simp only [multiQueries, hinfo]
  simp [mqGo, strip, hm0]

theorem mqGo_head_first (maxV : Nat) (hmax : 1 ≤ maxV) (b : Str) (vs : List Str)
    (hb : b ≠ []) (hsb : strip b = b) :
    (mqGo maxV (b :: vs) [] []).head? = some b := by
  rw [mqGo]
  have hkeep : strip b ≠ [] ∧ pyLower (strip b) ∉ ([] : List Str) :=
    ⟨by rw [hsb]; exact hb, by simp⟩
  rw [if_pos hkeep]
  split
  · simp [hsb]
  · have hpp := mqGo_pairwise_startsWith maxV vs ([] ++ [pyLower (strip b)])
      ([] ++ [strip b]) (by simp) (by simp)
    rcases hpp.2 with ⟨r, hr⟩
    rw [← hr]
    simp [hsb]

/-- C8 counterexample: with `max_variants = 0` the truncation check runs
only after the first append, so `multi_queries("fever", 0)` returns one
variant, exceeding the claimed `max_variants` cap. -/
theorem multiQueries_zero_overflows :
    multiQueries qpPlain (("fever").toList) 0 = [("fever").toList] ∧
      0 < (multiQueries qpPlain (("fever").toList) 0).length := by
  constructor
  · decide
  · decide

/-- C8 (amended): for every query and every `max_variants ≥ 1`,
`multi_queries` returns at most `max_variants` strings with no
case-insensitive duplicates whose first element (when any variant survives)
is the normalized, disambiguated base query; and
`multi_queries("fever", 3)` (WordNet absent) returns exactly the base
variant, the expansion-augmented variant and the domain-synonym OR-variant,
"fever" being a domain term.  For `max_variants = 0` the result still
contains one variant (see the counterexample). -/
theorem multiQueries_spec :
    (∀ (qp : QPConfig) (query : Str) (maxV : Nat), 1 ≤ maxV →
      (multiQueries qp query maxV).length ≤ maxV ∧
      List.Pairwise (fun a b => pyLower a ≠ pyLower b) (multiQueries qp query maxV) ∧
      (multiQueries qp query maxV ≠ [] →
        (multiQueries qp query maxV).head? = some (normalize (disambiguate query)))) ∧
    multiQueries qpPlain (("fever").toList) 3 =
      [("fever").toList, ("fever pyrexia temperature").toList,
       ("fever OR pyrexia OR temperature").toList] := by
  constructor
  · intro qp query maxV hmax
    refine ⟨?_, ?_, ?_⟩
    · exact mqGo_length maxV _ [] [] (by simpa using hmax)
    · exact (mqGo_pairwise_startsWith maxV _ [] [] (by simp) (by simp)).1
    · intro hne
      by_cases hbase : normalize (disambiguate query) = []
      · exact absurd (multiQueries_empty_base qp query maxV hmax hbase) hne
      · show (mqGo maxV (normalize (disambiguate query) :: _) [] []).head? = _
        exact mqGo_head_first maxV hmax _ _ hbase (normalize_strip_self _)
  · decide

/-- Witness for C8 instantiating the amended claim at `("fever", 3)`. -/
theorem multiQueries_spec_witness :
    (multiQueries qpPlain (("fever").toList) 3).length ≤ 3 ∧
      (multiQueries qpPlain (("fever").toList) 3).head? =
        some (normalize (disambiguate (("fever").toList))) := by
  have h := multiQueries_spec.1 qpPlain (("fever").toList) 3 (by decide)
  exact ⟨h.1, h.2.2 (by decide)⟩

/-! Claim C4. -/

theorem pyGetInt_isSome {α : Type} (l : List α) (i : Int)
    (h1 : -(l.length : Int) ≤ i) (h2 : i < (l.length : Int)) :
    ∃ d, pyGetInt l i = some d := by
  rw [pyGetInt]
  by_cases h0 : 0 ≤ i
  · rw [if_pos h0]
    have hlt : i.toNat < l.length := by omega
    exact ⟨l.get ⟨i.toNat, hlt⟩, List.get?_eq_get hlt⟩
  · rw [if_neg h0]
    have hge : ¬ (l.length : Int) + i < 0 := by omega
    rw [if_neg hge]
    have hlt : ((l.length : Int) + i).toNat < l.length := by omega
    exact ⟨l.get ⟨((l.length : Int) + i).toNat, hlt⟩, List.get?_eq_get hlt⟩

theorem legacyKeep_spec (docs : List DocChunk) :
    ∀ (l : List (Int × Int)) (n : Nat),
      (∀ p ∈ l, -(docs.length : Int) ≤ p.2 ∧ p.2 < (docs.length : Int)) →
      ((l.enumFrom n).filterMap (legacyKeep docs)).length = l.length ∧
      ∀ (j : Nat) (hj : j < ((l.enumFrom n).filterMap (legacyKeep docs)).length)
        (hjl : j < l.length),
        (((l.enumFrom n).filterMap (legacyKeep docs)).get ⟨j, hj⟩).rank = n + j + 1 ∧
        (((l.enumFrom n).filterMap (legacyKeep docs)).get ⟨j, hj⟩).similarity_score =
          (l.get ⟨j, hjl⟩).1 := by
  intro l
  induction l with
  | nil =>
    intro n hv
    constructor
    · simp
    · intro j hj hjl
      simp at hjl
  | cons p rest ih =>
    intro n hv
    have hp := hv p (by simp)
    rcases pyGetInt_isSome docs p.2 hp.1 hp.2 with ⟨d, hd⟩
    have hstep : ((p :: rest).enumFrom n).filterMap (legacyKeep docs) =
        ({ doc := d, similarity_score := p.1, rank := n + 1 } : RetrievedChunk) ::
          (rest.enumFrom (n + 1)).filterMap (legacyKeep docs) := by
      rw [List.enumFrom_cons, List.filterMap_cons]
      rw [show legacyKeep docs (n, p) =
          some { doc := d, similarity_score := p.1, rank := n + 1 } by
        rw [legacyKeep, if_pos hp.2, hd]
        rfl]
    have ihr := ih (n + 1) (fun q hq => hv q (by simp [hq]))
    constructor
    · rw [hstep]
      simp [ihr.1]
    · intro j hj hjl
      have hq : (List.filterMap (legacyKeep docs) (List.enumFrom n (p :: rest))).get? j =
          (({ doc := d, similarity_score := p.1, rank := n + 1 } : RetrievedChunk) ::
            List.filterMap (legacyKeep docs) (List.enumFrom (n + 1) rest)).get? j := by
        rw [hstep]
      rw [List.get?_eq_get hj] at hq
      cases j with
      | zero =>
        rw [show (({ doc := d, similarity_score := p.1, rank := n + 1 } :
            RetrievedChunk) :: List.filterMap (legacyKeep docs)
              (List.enumFrom (n + 1) rest)).get? 0 =
            some { doc := d, similarity_score := p.1, rank := n + 1 } from rfl] at hq
        have hval := Option.some.inj hq
        rw [hval]
        exact ⟨by simp, by simp [show (p :: rest).get ⟨0, hjl⟩ = p from rfl]⟩
      | succ k =>
        have hk : k < (List.filterMap (legacyKeep docs) (List.enumFrom (n + 1) rest)).length := by
          have := hj
          rw [hstep] at this
          simpa using this
        have hkl : k < rest.length := by simpa using hjl
        rw [show (({ doc := d, similarity_score := p.1, rank := n + 1 } :
            RetrievedChunk) :: List.filterMap (legacyKeep docs)
              (List.enumFrom (n + 1) rest)).get? (k + 1) =
            (List.filterMap (legacyKeep docs) (List.enumFrom (n + 1) rest)).get? k
          from rfl] at hq
        rw [List.get?_eq_get hk] at hq
        have hval := Option.some.inj hq
        rw [hval]
        have hcomp := ihr.2 k hk hkl
        refine ⟨by rw [hcomp.1]; omega, ?_⟩
        rw [hcomp.2]
        rfl

/-- C4: under the FAISS search contract — at most `k` result columns,
scores non-increasing across them, indices valid Python subscripts for the
aligned `document_chunks` list — the legacy vector retrieval of
`RAGSystem.retrieve` returns at most `k` results whose `rank` fields are
exactly `1..len(results)` strictly increasing in list order and whose
`similarity_score` values are non-increasing in list order. -/
theorem ragVectorRetrieve_spec (docs : List DocChunk) (searchOut : List (Int × Int))
    (k : Nat) (hlen : searchOut.length ≤ k)
    (hsorted : List.Chain' (fun a b => b.1 ≤ a.1) searchOut)
    (hvalid : ∀ p ∈ searchOut,
      -(docs.length : Int) ≤ p.2 ∧ p.2 < (docs.length : Int)) :
    (ragVectorRetrieve docs searchOut).length ≤ k ∧
    (∀ (j : Nat) (hj : j < (ragVectorRetrieve docs searchOut).length),
      ((ragVectorRetrieve docs searchOut).get ⟨j, hj⟩).rank = j + 1) ∧
    List.Chain' (fun a b => b.similarity_score ≤ a.similarity_score)
      (ragVectorRetrieve docs searchOut) := by
  have hspec := legacyKeep_spec docs searchOut 0 hvalid
  have hchain : List.Chain' (fun a b => b.similarity_score ≤ a.similarity_score)
      ((searchOut.enumFrom 0).filterMap (legacyKeep docs)) := by
    rw [List.chain'_iff_get]
    intro i hi
    have hil : i < searchOut.length - 1 := by omega
    have hi1 : i < ((searchOut.enumFrom 0).filterMap (legacyKeep docs)).length := by omega
    have hi2 : i + 1 < ((searchOut.enumFrom 0).filterMap (legacyKeep docs)).length := by
      omega
    have hl1 : i < searchOut.length := by omega
    have hl2 : i + 1 < searchOut.length := by omega
    rw [(hspec.2 i hi1 hl1).2, (hspec.2 (i + 1) hi2 hl2).2]
    exact List.chain'_iff_get.mp hsorted i (by omega)
  have hfix : ragVectorRetrieve docs searchOut =
      (searchOut.enumFrom 0).filterMap (legacyKeep docs) := by
    rw [ragVectorRetrieve]
    apply sortLe_of_chain
    exact hchain.imp fun a b h => decide_eq_true h
  refine ⟨?_, ?_, ?_⟩
  · rw [hfix, hspec.1]
    exact hlen
  · intro j hj
    have hj2 : j < ((searchOut.enumFrom 0).filterMap (legacyKeep docs)).length := by
      rw [← hfix]
      exact hj
    have hjl : j < searchOut.length := by omega
    have hq : (ragVectorRetrieve docs searchOut).get? j =
        ((searchOut.enumFrom 0).filterMap (legacyKeep docs)).get? j := by
      rw [hfix]
    rw [List.get?_eq_get hj, List.get?_eq_get hj2] at hq
    rw [Option.some.inj hq, (hspec.2 j hj2 hjl).1]
    omega
  · rw [hfix]
    exact hchain

/-- Witness for C4 on a three-chunk corpus and a concrete FAISS-shaped
result with a `-1` padding column. -/
theorem ragVectorRetrieve_spec_witness :
    (ragVectorRetrieve c4docs [(9, 2), (7, 0), (7, 1), (-1000, -1)]).length ≤ 4 ∧
      List.Chain' (fun a b => b.similarity_score ≤ a.similarity_score)
        (ragVectorRetrieve c4docs [(9, 2), (7, 0), (7, 1), (-1000, -1)]) := by
  have h := ragVectorRetrieve_spec c4docs [(9, 2), (7, 0), (7, 1), (-1000, -1)] 4
    (by decide) (by simp [List.chain'_cons]) (by decide)
  exact ⟨h.1, h.2.2⟩

/-! Claim C3. -/

/-- The pool the corrective pass merges: first-pass results followed by the
per-variant second-pass results (`results + alt` in the source). -/
def correctivePool (hybrid : Str → List RC) (qp : QPConfig) (query : Str) : List RC :=
  hybrid query ++
    (multiQueries qp (query ++ (" detailed clinical context").toList) 4).foldl
      (fun acc q => acc ++ hybrid q) []

/-- The merged dict's values, in key-insertion order. -/
def mergedValues (hybrid : Str → List RC) (qp : QPConfig) (query : Str) : List RC :=
  (mergeKeyed [] (correctivePool hybrid qp query)).map (fun kv => kv.2)

/-- Membership in a merge update: every entry was already present or is the
freshly inserted pair. -/
theorem updateKey_mem : ∀ (m : List (Str × RC)) (key : Str) (r : RC)
    (kr : Str × RC), kr ∈ updateKey m key r → kr ∈ m ∨ kr = (key, r) := by
  intro m key r
  induction m with
  | nil =>
    intro kr hkr
    rw [updateKey] at hkr
    right
    simpa using hkr
  | cons h rest ih =>
    intro kr hkr
    rw [updateKey] at hkr
    by_cases hk : h.1 = key
    · rw [if_pos hk] at hkr
      split at hkr
      · rcases List.mem_cons.mp hkr with hkr | hkr
        · right
          rw [hkr, hk]
        · left
          exact List.mem_cons.mpr (Or.inr hkr)
      · left
        exact hkr
    · rw [if_neg hk] at hkr
      rcases List.mem_cons.mp hkr with hkr | hkr
      · left
        rw [hkr]
        exact List.mem_cons.mpr (Or.inl rfl)
      · rcases ih kr hkr with h2 | h2
        · left
          exact List.mem_cons.mpr (Or.inr h2)
        · right
          exact h2

theorem updateKey_keys_mem (m : List (Str × RC)) (key : Str) (r : RC)
    (hin : key ∈ m.map Prod.fst) :
    (updateKey m key r).map Prod.fst = m.map Prod.fst := by
  induction m with
  | nil => simp at hin
  | cons h rest ih =>
    rw [updateKey]
    by_cases hk : h.1 = key
    · rw [if_pos hk]
      split <;> simp [hk]
    · rw [if_neg hk]
      have hin2 : key ∈ rest.map Prod.fst := by
        rcases List.mem_map.mp hin with ⟨kr, hkr, hfst⟩
        rcases List.mem_cons.mp hkr with hkr | hkr
        · exact absurd (hkr ▸ hfst) hk
        · exact List.mem_map.mpr ⟨kr, hkr, hfst⟩
      simp [ih hin2]

theorem updateKey_keys_not_mem (m : List (Str × RC)) (key : Str) (r : RC)
    (hout : key ∉ m.map Prod.fst) :
    updateKey m key r = m ++ [(key, r)] := by
  induction m with
  | nil => rfl
  | cons h rest ih =>
    rw [updateKey]
    have hk : h.1 ≠ key := by
      intro hk
      exact hout (List.mem_map.mpr ⟨h, by simp, hk⟩)
    rw [if_neg hk]
    have hout2 : key ∉ rest.map Prod.fst := by
      intro hmem
      rcases List.mem_map.mp hmem with ⟨kr, hkr, hfst⟩
      exact hout (List.mem_map.mpr ⟨kr, by simp [hkr], hfst⟩)
    simp [ih hout2]

theorem updateKey_pairwise (m : List (Str × RC)) (key : Str) (r : RC)
    (hp : List.Pairwise (fun a b => a.1 ≠ b.1) m) :
    List.Pairwise (fun a b => a.1 ≠ b.1) (updateKey m key r) := by
  by_cases hin : key ∈ m.map Prod.fst
  · have hkeys := updateKey_keys_mem m key r hin
    have h1 : List.Pairwise (fun a b => a ≠ b) ((updateKey m key r).map Prod.fst) := by
      rw [hkeys]
      exact (List.pairwise_map).mpr hp
    exact (List.pairwise_map).mp h1
  · rw [updateKey_keys_not_mem m key r hin]
    rw [List.pairwise_append]
    refine ⟨hp, by simp, ?_⟩
    intro a ha b hb
    rw [List.mem_singleton] at hb
    subst hb
    intro hab
    exact hin (List.mem_map.mpr ⟨a, ha, hab⟩)

/-- An entry of the merge dominates a pool element: same 200-character key
and at least its score. -/
def covers (m : List (Str × RC)) (x : RC) : Prop :=
  ∃ kr ∈ m, kr.1 = x.text.take 200 ∧ x.score ≤ kr.2.score

theorem updateKey_covers_mono (m : List (Str × RC)) (key : Str) (r : RC) (x : RC)
    (hc : covers m x) : covers (updateKey m key r) x := by
  induction m with
  | nil => rcases hc with ⟨kr, hkr, -⟩; simp at hkr
  | cons h rest ih =>
    rcases hc with ⟨kr, hkr, hkey, hsc⟩
    rw [updateKey]
    by_cases hk : h.1 = key
    · rw [if_pos hk]
      rcases List.mem_cons.mp hkr with hkr | hkr
      · subst hkr
        split
        · rename_i hlt
          exact ⟨(kr.1, r), by simp, hkey, by show x.score ≤ r.score; omega⟩
        · exact ⟨(kr.1, kr.2), by simp, hkey, hsc⟩
      · split
        · exact ⟨kr, List.mem_cons.mpr (Or.inr hkr), hkey, hsc⟩
        · exact ⟨kr, List.mem_cons.mpr (Or.inr hkr), hkey, hsc⟩
    · rw [if_neg hk]
      rcases List.mem_cons.mp hkr with hkr | hkr
      · subst hkr
        exact ⟨(kr.1, kr.2), by simp, hkey, hsc⟩
      · rcases ih ⟨kr, hkr, hkey, hsc⟩ with ⟨kr2, hkr2, hkey2, hsc2⟩
        exact ⟨kr2, List.mem_cons.mpr (Or.inr hkr2), hkey2, hsc2⟩

theorem updateKey_covers_self (m : List (Str × RC)) (r : RC) :
    covers (updateKey m (r.text.take 200) r) r := by
  induction m with
  | nil => exact ⟨(r.text.take 200, r), by simp [updateKey], rfl, Int.le_refl _⟩
  | cons h rest ih =>
    rw [updateKey]
    by_cases hk : h.1 = r.text.take 200
    · rw [if_pos hk]
      split
      · exact ⟨(h.1, r), by simp, hk, Int.le_refl _⟩
      · rename_i hnlt
        exact ⟨(h.1, h.2), by simp, hk, by show r.score ≤ h.2.score; omega⟩
    · rw [if_neg hk]
      rcases ih with ⟨kr, hkr, hkey, hsc⟩
      exact ⟨kr, List.mem_cons.mpr (Or.inr hkr), hkey, hsc⟩

theorem mergeKeyed_spec :
    ∀ (rs : List RC) (m : List (Str × RC)),
      (∀ kr ∈ m, kr.1 = kr.2.text.take 200) →
      List.Pairwise (fun (a b : Str × RC) => a.1 ≠ b.1) m →
      (∀ kr ∈ mergeKeyed m rs, kr.1 = kr.2.text.take 200 ∧ (kr ∈ m ∨ kr.2 ∈ rs)) ∧
      List.Pairwise (fun (a b : Str × RC) => a.1 ≠ b.1) (mergeKeyed m rs) ∧
      (∀ x ∈ rs, covers (mergeKeyed m rs) x) ∧
      (∀ x : RC, covers m x → covers (mergeKeyed m rs) x) := by
  intro rs
  induction rs with
  | nil =>
    intro m h1 h2
    refine ⟨?_, h2, ?_, ?_⟩
    · intro kr hkr
      exact ⟨h1 kr hkr, Or.inl hkr⟩
    · intro x hx
      simp at hx
    · intro x hc
      exact hc
  | cons r rest ih =>
    intro m h1 h2
    have h1u : ∀ kr ∈ updateKey m (r.text.take 200) r, kr.1 = kr.2.text.take 200 := by
      intro kr hkr
      rcases updateKey_mem m (r.text.take 200) r kr hkr with hkr | hkr
      · exact h1 kr hkr
      · rw [hkr]
    have h2u := updateKey_pairwise m (r.text.take 200) r h2
    have ihr := ih (updateKey m (r.text.take 200) r) h1u h2u
    rw [show mergeKeyed m (r :: rest) =
        mergeKeyed (updateKey m (r.text.take 200) r) rest from rfl]
    refine ⟨?_, ihr.2.1, ?_, ?_⟩
    · intro kr hkr
      rcases ihr.1 kr hkr with ⟨hpre, hmem⟩
      refine ⟨hpre, ?_⟩
      rcases hmem with hmem | hmem
      · rcases updateKey_mem m (r.text.take 200) r kr hmem with hmem | hmem
        · exact Or.inl hmem
        · exact Or.inr (by rw [hmem]; simp)
      · exact Or.inr (by simp [hmem])
    · intro x hx
      rcases List.mem_cons.mp hx with hx | hx
      · subst hx
        exact ihr.2.2.2 x (updateKey_covers_self m x)
      · exact ihr.2.2.1 x hx
    · intro x hc
      exact ihr.2.2.2 x (updateKey_covers_mono m (r.text.take 200) r x hc)

theorem rcLe_total : ∀ a b : RC, decide (b.score ≤ a.score) = true ∨
    decide (a.score ≤ b.score) = true := by
  intro a b
  rcases Int.le_total a.score b.score with h | h
  · right; exact decide_eq_true h
  · left; exact decide_eq_true h

/-- C3: the corrective-retrieval logic of `RAGSystem.retrieve`.  When the
first pass is not weak, its results are returned unchanged (no corrective
pass).  When it is weak (`len(results) < max(3, top_k // 2)`, which
subsumes emptiness), exactly one corrective pass runs: at most 4 expanded
variants are each retrieved, the first-pass and variant results are merged
keyed on the first 200 characters of chunk text keeping per key a
highest-scoring occurrence drawn from the pool, and the output is exactly
the merged values sorted by score descending (stable) and truncated to
`top_k` — hence at most `top_k` results, scores non-increasing, and no two
output entries sharing a 200-character prefix.  The equation in the weak
case mentions `hybrid` only through single retrieval calls, so the
corrective pass never recurses. -/
theorem ragRetrieve_corrective_spec (hybrid : Str → List RC) (qp : QPConfig)
    (query : Str) (topK : Nat) :
    (¬ (hybrid query).length < max 3 (topK / 2) →
      ragRetrieve hybrid qp query topK = hybrid query) ∧
    ((hybrid query).length < max 3 (topK / 2) →
      (multiQueries qp (query ++ (" detailed clinical context").toList) 4).length ≤ 4 ∧
      ragRetrieve hybrid qp query topK =
        (sortLe (fun a b => decide (b.score ≤ a.score))
          (mergedValues hybrid qp query)).take topK ∧
      (ragRetrieve hybrid qp query topK).length ≤ topK ∧
      List.Chain' (fun a b => b.score ≤ a.score) (ragRetrieve hybrid qp query topK) ∧
      List.Pairwise (fun a b => a.text.take 200 ≠ b.text.take 200)
        (ragRetrieve hybrid qp query topK) ∧
      (∀ r ∈ ragRetrieve hybrid qp query topK, r ∈ correctivePool hybrid qp query) ∧
      (∀ x ∈ correctivePool hybrid qp query, ∃ r ∈ mergedValues hybrid qp query,
        r.text.take 200 = x.text.take 200 ∧ x.score ≤ r.score)) := by
  have hmk := mergeKeyed_spec (correctivePool hybrid qp query) [] (by simp) (by simp)
  constructor
  · intro hstrong
    have hne : (hybrid query).isEmpty = false := by
      cases hq : hybrid query with
      | nil =>
        exfalso
        apply hstrong
        rw [hq]
        simp only [List.length_nil]
        omega
      | cons a l => rfl
    rw [ragRetrieve]
    rw [if_neg (by simp [hne, hstrong])]
  · intro hweak
    have hcond : ((hybrid query).isEmpty || decide ((hybrid query).length < max 3 (topK / 2))) = true := by
      simp [hweak]
    have heq : ragRetrieve hybrid qp query topK =
        (sortLe (fun a b => decide (b.score ≤ a.score))
          (mergedValues hybrid qp query)).take topK := by
      rw [ragRetrieve, if_pos hcond]
      rfl
    have hvalpre : ∀ r ∈ mergedValues hybrid qp query, ∃ kr ∈
        mergeKeyed [] (correctivePool hybrid qp query), kr.2 = r ∧
          kr.1 = r.text.take 200 := by
      intro r hr
      rcases List.mem_map.mp hr with ⟨kr, hkr, hval⟩
      exact ⟨kr, hkr, hval, by rw [← hval]; exact (hmk.1 kr hkr).1⟩
    have hpw : List.Pairwise (fun (a b : RC) => a.text.take 200 ≠ b.text.take 200)
        (mergedValues hybrid qp query) := by
      rw [mergedValues]
      rw [List.pairwise_map]
      apply List.Pairwise.imp_of_mem ?_ hmk.2.1
      intro a b ha hb hne12
      rw [← (hmk.1 a ha).1, ← (hmk.1 b hb).1]
      exact hne12
    have hsortperm := sortLe_perm (fun (a b : RC) => decide (b.score ≤ a.score))
      (mergedValues hybrid qp query)
    have hchain : List.Chain' (fun (a b : RC) => b.score ≤ a.score)
        ((sortLe (fun a b => decide (b.score ≤ a.score))
          (mergedValues hybrid qp query)).take topK) := by
      apply chain'_take
      have := sortLe_chain (fun (a b : RC) => decide (b.score ≤ a.score)) rcLe_total
        (mergedValues hybrid qp query)
      exact this.imp fun a b h => of_decide_eq_true h
    refine ⟨?_, heq, ?_, ?_, ?_, ?_, ?_⟩
    · exact mqGo_length 4 _ [] [] (by simp)
    · rw [heq]
      simp only [List.length_take]
      omega
    · rw [heq]
      exact hchain
    · rw [heq]
      apply List.Pairwise.sublist (List.take_sublist _ _)
      exact ((hsortperm.pairwise_iff (by
        intro a b h hab
        exact h hab.symm)).mpr hpw)
    · intro r hr
      rw [heq] at hr
      have hr2 : r ∈ sortLe (fun (a b : RC) => decide (b.score ≤ a.score))
          (mergedValues hybrid qp query) := List.mem_of_mem_take hr
      have hr3 : r ∈ mergedValues hybrid qp query := hsortperm.mem_iff.mp hr2
      rcases List.mem_map.mp hr3 with ⟨kr, hkr, hval⟩
      rcases (hmk.1 kr hkr).2 with hm | hm
      · simp at hm
      · rw [← hval]
        exact hm
    · intro x hx
      rcases hmk.2.2.1 x hx with ⟨kr, hkr, hkey, hsc⟩
      refine ⟨kr.2, List.mem_map.mpr ⟨kr, hkr, rfl⟩, ?_, hsc⟩
      rw [← (hmk.1 kr hkr).1]
      exact hkey

/-- Witness for C3: a first pass returning 1 result with `top_k = 10`
triggers the corrective pass; the final set is bounded, and no two final
entries share a 200-character prefix. -/
theorem ragRetrieve_corrective_spec_witness :
    (multiQueries qpPlain ((("fever").toList) ++ (" detailed clinical context").toList)
        4).length ≤ 4 ∧
      (ragRetrieve hybC qpPlain (("fever").toList) 10).length ≤ 10 ∧
      List.Pairwise (fun a b => a.text.take 200 ≠ b.text.take 200)
        (ragRetrieve hybC qpPlain (("fever").toList) 10) := by
  have h := (ragRetrieve_corrective_spec hybC qpPlain (("fever").toList) 10).2 (by decide)
  exact ⟨h.1, h.2.2.1, h.2.2.2.2.1⟩

/-! Claim C6. -/

theorem slidingRanges_cover (W O n : Nat) (h : O < W) (start i : Nat)
    (hsi : start ≤ i) (hin : i < n) :
    ∃ se ∈ slidingRangesGo W O n h start, se.1 ≤ i ∧ i < se.2 := by
  rw [slidingRangesGo]
  rw [dif_pos (show start < n by omega)]
  by_cases he : n ≤ start + W
  · rw [dif_pos he]
    exact ⟨(start, n), by simp, hsi, hin⟩
  · rw [dif_neg he]
    by_cases hiw : i < start + W
    · exact ⟨(start, start + W), by simp, hsi, hiw⟩
    · rcases slidingRanges_cover W O n h (start + W - O) i (by omega) hin with
        ⟨se, hse, hcov⟩
      exact ⟨se, List.mem_cons.mpr (Or.inr hse), hcov⟩
termination_by n - start
decreasing_by omega

theorem slidingRanges_shape (W O n : Nat) (h : O < W) (start : Nat) :
    ∀ se ∈ slidingRangesGo W O n h start, se.1 < se.2 ∧ se.2 - se.1 ≤ W ∧ se.2 ≤ n := by
  rw [slidingRangesGo]
  by_cases hs : start < n
  · rw [dif_pos hs]
    by_cases he : n ≤ start + W
    · rw [dif_pos he]
      intro se hse
      rw [List.mem_singleton] at hse
      subst hse
      exact ⟨hs, by omega, Nat.le_refl _⟩
    · rw [dif_neg he]
      intro se hse
      rcases List.mem_cons.mp hse with hse | hse
      · subst hse
        exact ⟨by omega, by omega, by omega⟩
      · exact slidingRanges_shape W O n h (start + W - O) se hse
  · rw [dif_neg hs]
    intro se hse
    simp at hse
termination_by n - start
decreasing_by omega

theorem slidingRanges_final_unique (W O n : Nat) (h : O < W) (start : Nat)
    (hs : start < n) :
    ((slidingRangesGo W O n h start).filter (fun se => se.2 = n)).length = 1 := by
  rw [slidingRangesGo, dif_pos hs]
  by_cases he : n ≤ start + W
  · rw [dif_pos he]
    simp
  · rw [dif_neg he]
    rw [List.filter_cons]
    rw [if_neg (by simp; omega)]
    exact slidingRanges_final_unique W O n h (start + W - O) (by omega)
termination_by n - start
decreasing_by omega

theorem splitWs_slice (text : Str) (s e : Nat) (hse : s < e)
    (hen : e ≤ (splitWs text).length) :
    splitWs (strip (sepJoin (((splitWs text).drop s).take (e - s)))) =
      ((splitWs text).drop s).take (e - s) ∧
    ((splitWs text).drop s).take (e - s) ≠ [] := by
  have hsub : ∀ t ∈ ((splitWs text).drop s).take (e - s),
      t ≠ [] ∧ ∀ c ∈ t, pySpace c = false := by
    intro t ht
    exact mem_splitWs text t (List.mem_of_mem_drop (List.mem_of_mem_take ht))
  constructor
  · rw [splitWs_strip, splitWs_sepJoin_tokens _ hsub]
  · have hlen : (((splitWs text).drop s).take (e - s)).length = e - s := by
      simp only [List.length_take, List.length_drop]
      omega
    intro hcon
    rw [hcon] at hlen
    simp at hlen
    omega

theorem filterMap_eq_map_of_some {α β : Type} (f : α → Option β) (g : α → β)
    (l : List α) (h : ∀ a ∈ l, f a = some (g a)) : l.filterMap f = l.map g := by
  induction l with
  | nil => rfl
  | cons a rest ih =>
    rw [List.filterMap_cons, h a (by simp), List.map_cons]
    rw [ih fun b hb => h b (by simp [hb])]

theorem sliding_chunks_eq (text : Str) (W O : Nat) (h : O < W) :
    sliding_window_chunk text W O h =
      (slidingRangesGo W O (splitWs text).length h 0).map (fun r =>
        { text := strip (sepJoin (((splitWs text).drop r.1).take (r.2 - r.1))),
          summary := summarize
            (strip (sepJoin (((splitWs text).drop r.1).take (r.2 - r.1)))) 180 }) := by
  rw [sliding_window_chunk]
  by_cases hemp : (splitWs text).isEmpty
  · rw [if_pos hemp]
    have hn : (splitWs text).length = 0 := by
      cases hv : splitWs text
      · rfl
      · rw [hv] at hemp; simp at hemp
    rw [hn]
    rw [show slidingRangesGo W O 0 h 0 = [] by rw [slidingRangesGo]; rfl]
    rfl
  · rw [if_neg hemp]
    apply filterMap_eq_map_of_some
    intro r hr
    have hshape := slidingRanges_shape W O (splitWs text).length h 0 r hr
    have hslice := splitWs_slice text r.1 r.2 hshape.1 hshape.2.2
    have hpiece : strip (sepJoin (((splitWs text).drop r.1).take (r.2 - r.1))) ≠ [] := by
      intro hcon
      apply hslice.2
      rw [← hslice.1, hcon]
      rfl
    rw [if_neg hpiece]

/-- C6: for every input text, `sliding_window_chunk` at the source defaults
(`window_tokens = 140`, `overlap_tokens = 40`) terminates (the model is a
total function whose recursion mirrors the loop), every token of the input
appears in at least one emitted window (full coverage, no silent loss),
each window holds between 1 and 140 tokens, exactly one traced window
reaches the end of the token sequence (none when the input has no tokens),
and every traced window yields exactly one emitted chunk. -/
theorem sliding_window_chunk_spec (text : Str) :
    (∀ (i : Nat) (hi : i < (splitWs text).length),
      ∃ c ∈ sliding_window_chunk text 140 40 (by omega),
        (splitWs text).get ⟨i, hi⟩ ∈ splitWs c.text) ∧
    (∀ c ∈ sliding_window_chunk text 140 40 (by omega),
      1 ≤ (splitWs c.text).length ∧ (splitWs c.text).length ≤ 140) ∧
    ((slidingRangesGo 140 40 (splitWs text).length (by omega) 0).filter
        (fun se => se.2 = (splitWs text).length)).length =
      (if (splitWs text).length = 0 then 0 else 1) ∧
    (sliding_window_chunk text 140 40 (by omega)).length =
      (slidingRangesGo 140 40 (splitWs text).length (by omega) 0).length := by
  have hO : (40 : Nat) < 140 := by omega
  refine ⟨?_, ?_, ?_, ?_⟩
  · intro i hi
    rcases slidingRanges_cover 140 40 (splitWs text).length hO 0 i (Nat.zero_le _) hi with
      ⟨se, hse, h1, h2⟩
    have hshape := slidingRanges_shape 140 40 (splitWs text).length hO 0 se hse
    rw [sliding_chunks_eq]
    refine ⟨_, List.mem_map.mpr ⟨se, hse, rfl⟩, ?_⟩
    show (splitWs text).get ⟨i, hi⟩ ∈
      splitWs (strip (sepJoin (((splitWs text).drop se.1).take (se.2 - se.1))))
    rw [(splitWs_slice text se.1 se.2 hshape.1 hshape.2.2).1]
    have hidx : i - se.1 < (((splitWs text).drop se.1).take (se.2 - se.1)).length := by
      simp only [List.length_take, List.length_drop]
      omega
    have hval : (((splitWs text).drop se.1).take (se.2 - se.1)).get ⟨i - se.1, hidx⟩ =
        (splitWs text).get ⟨i, hi⟩ := by
      simp only [List.get_eq_getElem, List.getElem_take, List.getElem_drop]
      congr 1
      omega
    rw [← hval]
    exact List.get_mem _ _ _
  · intro c hc
    rw [sliding_chunks_eq] at hc
    rcases List.mem_map.mp hc with ⟨se, hse, hval⟩
    have hshape := slidingRanges_shape 140 40 (splitWs text).length hO 0 se hse
    have hslice := splitWs_slice text se.1 se.2 hshape.1 hshape.2.2
    rw [← hval]
    rw [hslice.1]
    have hlen : (((splitWs text).drop se.1).take (se.2 - se.1)).length = se.2 - se.1 := by
      simp only [List.length_take, List.length_drop]
      omega
    rw [hlen]
    omega
  · by_cases hn : (splitWs text).length = 0
    · rw [if_pos hn, hn]
      rw [show slidingRangesGo 140 40 0 (by omega) 0 = [] by rw [slidingRangesGo]; rfl]
      rfl
    · rw [if_neg hn]
      exact slidingRanges_final_unique 140 40 (splitWs text).length hO 0 (by omega)
  · rw [sliding_chunks_eq]
    simp

/-- Witness for C6 on a concrete three-token input. -/
theorem sliding_window_chunk_spec_witness :
    ∃ c ∈ sliding_window_chunk (("jwara fever herb").toList) 140 40 (by omega),
      (splitWs (("jwara fever herb").toList)).get ⟨1, by decide⟩ ∈ splitWs c.text := by
  exact (sliding_window_chunk_spec (("jwara fever herb").toList)).1 1 (by decide)

/-! Claim C5. -/

theorem sliding_bounds (t : Str) (W O : Nat) (h : O < W) :
    ∀ c ∈ sliding_window_chunk t W O h,
      1 ≤ (splitWs c.text).length ∧ (splitWs c.text).length ≤ W := by
  intro c hc
  rw [sliding_chunks_eq] at hc
  rcases List.mem_map.mp hc with ⟨se, hse, hval⟩
  have hshape := slidingRanges_shape W O (splitWs t).length h 0 se hse
  have hslice := splitWs_slice t se.1 se.2 hshape.1 hshape.2.2
  rw [← hval]
  show 1 ≤ (splitWs (strip (sepJoin (((splitWs t).drop se.1).take (se.2 - se.1))))).length ∧
    (splitWs (strip (sepJoin (((splitWs t).drop se.1).take (se.2 - se.1))))).length ≤ W
  rw [hslice.1]
  have hlen : (((splitWs t).drop se.1).take (se.2 - se.1)).length = se.2 - se.1 := by
    simp only [List.length_take, List.length_drop]
    omega
  rw [hlen]
  omega

theorem flushBuffer_bounds (buffer : List Str) (maxT : Nat)
    (hb : ((buffer.map splitWs).flatten).length ≤ maxT) :
    ∀ c ∈ flushBuffer buffer,
      1 ≤ (splitWs c.text).length ∧ (splitWs c.text).length ≤ maxT := by
  intro c hc
  simp only [flushBuffer] at hc
  by_cases h0 : buffer = []
  · rw [if_pos h0] at hc
    simp at hc
  · rw [if_neg h0] at hc
    by_cases hm : strip (sepJoin buffer) = []
    · rw [if_pos hm] at hc
      simp at hc
    · rw [if_neg hm] at hc
      rw [List.mem_singleton] at hc
      subst hc
      constructor
      · exact List.length_pos.mpr (splitWs_nonempty_of_strip (sepJoin buffer) hm)
      · show (splitWs (strip (sepJoin buffer))).length ≤ maxT
        rw [splitWs_strip, splitWs_sepJoin]
        exact hb

theorem semanticPackGo_bounds (target maxT : Nat) (h35 : 35 < target)
    (htm : target ≤ maxT) (paras : List Str) :
    ∀ (buffer : List Str) (bufLen : Nat),
      bufLen = ((buffer.map splitWs).flatten).length → bufLen ≤ maxT →
      ∀ c ∈ semanticPackGo target maxT h35 paras buffer bufLen,
        1 ≤ (splitWs c.text).length ∧ (splitWs c.text).length ≤ maxT := by
  induction paras with
  | nil =>
    intro buffer bufLen hinv hle c hc
    simp only [semanticPackGo] at hc
    refine flushBuffer_bounds buffer maxT ?_ c hc
    omega
  | cons para rest ih =>
    intro buffer bufLen hinv hle c hc
    simp only [semanticPackGo] at hc
    by_cases hbig : maxT < (splitWs para).length
    · rw [if_pos hbig] at hc
      rcases List.mem_append.mp hc with hc | hc
      · rcases List.mem_append.mp hc with hc | hc
        · refine flushBuffer_bounds buffer maxT ?_ c hc
          omega
        · have hb := sliding_bounds para target 35 h35 c hc
          exact ⟨hb.1, le_trans hb.2 htm⟩
      · exact ih [] 0 rfl (Nat.zero_le _) c hc
    · rw [if_neg hbig] at hc
      by_cases hfit : bufLen + (splitWs para).length ≤ maxT
      · rw [if_pos hfit] at hc
        by_cases htar : target ≤ bufLen + (splitWs para).length
        · rw [if_pos htar] at hc
          rcases List.mem_append.mp hc with hc | hc
          · refine flushBuffer_bounds (buffer ++ [para]) maxT ?_ c hc
            simp only [List.map_append, List.flatten_append, List.length_append,
              List.map_cons, List.map_nil, List.flatten_cons, List.flatten_nil,
              List.append_nil]
            omega
          · exact ih [] 0 rfl (Nat.zero_le _) c hc
        · rw [if_neg htar] at hc
          refine ih (buffer ++ [para]) (bufLen + (splitWs para).length) ?_ hfit c hc
          simp only [List.map_append, List.flatten_append, List.length_append,
            List.map_cons, List.map_nil, List.flatten_cons, List.flatten_nil,
            List.append_nil]
          omega
      · rw [if_neg hfit] at hc
        rcases List.mem_append.mp hc with hc | hc
        · refine flushBuffer_bounds buffer maxT ?_ c hc
          omega
        · refine ih [para] (splitWs para).length ?_ (by omega) c hc
          simp

theorem semantic_pack_bounds (paragraphs : List Str) (target maxT : Nat)
    (h35 : 35 < target) (htm : target ≤ maxT) :
    ∀ c ∈ semantic_pack paragraphs target maxT h35,
      1 ≤ (splitWs c.text).length ∧ (splitWs c.text).length ≤ maxT :=
  semanticPackGo_bounds target maxT h35 htm paragraphs [] 0 rfl (Nat.zero_le _)

theorem refineGo_stripped (lines : List Str) :
    ∀ (current : List Str) (r : Str), r ∈ refineGo lines current → strip r = r := by
  induction lines with
  | nil =>
    intro current r hr
    simp only [refineGo] at hr
    split at hr
    · rw [List.mem_singleton] at hr
      subst hr
      exact strip_idem _
    · simp at hr
  | cons line rest ih =>
    intro current r hr
    simp only [refineGo] at hr
    split at hr
    · rcases List.mem_cons.mp hr with hr | hr
      · subst hr
        exact strip_idem _
      · exact ih _ _ hr
    · exact ih _ _ hr

theorem structural_split_pos (text : Str) :
    ∀ p ∈ structural_split text, 1 ≤ (splitWs p).length := by
  intro p hp
  simp only [structural_split] at hp
  rw [List.mem_filter] at hp
  rcases hp with ⟨hpmem, hpne⟩
  rcases List.mem_flatten.mp hpmem with ⟨l, hl, hpl⟩
  rcases List.mem_map.mp hl with ⟨blk, hblk, hlv⟩
  rw [← hlv] at hpl
  have hstr : strip p = p := refineGo_stripped _ _ p hpl
  have hne : p ≠ [] := by simpa using hpne
  have hsp : strip p ≠ [] := by rw [hstr]; exact hne
  have := splitWs_nonempty_of_strip p hsp
  rw [hstr] at this
  exact List.length_pos.mpr this

theorem dedupByKeyGo_subset (l : List Chunk) :
    ∀ (seen : List Str) (c : Chunk), c ∈ dedupByKeyGo seen l → c ∈ l := by
  induction l with
  | nil =>
    intro seen c hc
    simp only [dedupByKeyGo] at hc
    simp at hc
  | cons a rest ih =>
    intro seen c hc
    simp only [dedupByKeyGo] at hc
    split at hc
    · exact List.mem_cons.mpr (Or.inr (ih _ _ hc))
    · rcases List.mem_cons.mp hc with hc | hc
      · exact List.mem_cons.mpr (Or.inl hc)
      · exact List.mem_cons.mpr (Or.inr (ih _ _ hc))

/-- A one-paragraph text of `n + 1` single-letter tokens, no newlines, no
headings: `"a a a ... a"`. -/
def aTxt (n : Nat) : Str := sepJoin (List.replicate (n + 1) (('a') :: []))

theorem aTxt_succ (n : Nat) : aTxt (n + 1) = 'a' :: ' ' :: aTxt n := rfl

theorem aTxt_ne_nil (n : Nat) : aTxt n ≠ [] := by
  cases n with
  | zero => decide
  | succ m => rw [aTxt_succ]; simp

theorem aTxt_chars (n : Nat) : ∀ c ∈ aTxt n, c = 'a' ∨ c = ' ' := by
  induction n with
  | zero =>
    intro c hc
    left
    simpa [aTxt, sepJoin] using hc
  | succ m ih =>
    intro c hc
    rw [aTxt_succ] at hc
    rcases List.mem_cons.mp hc with hc | hc
    · exact Or.inl hc
    · rcases List.mem_cons.mp hc with hc | hc
      · exact Or.inr hc
      · exact ih c hc

theorem aTxt_dropWhile (n : Nat) : (aTxt n).dropWhile pySpace = aTxt n := by
  cases n with
  | zero => decide
  | succ m =>
    rw [aTxt_succ]
    exact dropWhile_cons_false _ _ (by decide)

theorem aTxt_reverse (n : Nat) : ∃ r, (aTxt n).reverse = 'a' :: r := by
  induction n with
  | zero => exact ⟨[], by decide⟩
  | succ m ih =>
    rcases ih with ⟨r, hr⟩
    refine ⟨r ++ [' ', 'a'], ?_⟩
    rw [aTxt_succ]
    simp [hr]

theorem strip_aTxt (n : Nat) : strip (aTxt n) = aTxt n := by
  rcases aTxt_reverse n with ⟨r, hr⟩
  rw [strip, aTxt_dropWhile, hr, dropWhile_cons_false _ _ (by decide), ← hr,
    List.reverse_reverse]

theorem splitMN_no_nl (cs : Str) (h : ∀ c ∈ cs, c ≠ ('\n' : Char)) :
    ∀ cur, splitMultiNewline [] cur cs = [cur ++ cs] := by
  induction cs with
  | nil =>
    intro cur
    rw [splitMultiNewline]
    rw [if_neg (by decide)]
  | cons c cs ih =>
    intro cur
    rw [splitMultiNewline]
    rw [if_neg (h c (by simp))]
    rw [if_neg (by decide)]
    rw [ih (fun d hd => h d (by simp [hd])) (cur ++ [] ++ [c])]
    simp

theorem splitLinesGo_step_a (cur : Str) (cs : Str) :
    splitLinesGo cur (('a') :: cs) = splitLinesGo (cur ++ [('a')]) cs := rfl

theorem splitLinesGo_step_sp (cur : Str) (cs : Str) :
    splitLinesGo cur ((' ') :: cs) = splitLinesGo (cur ++ [(' ')]) cs := rfl

theorem splitLinesGo_aa (cs : Str) (h : ∀ c ∈ cs, c = 'a' ∨ c = ' ') :
    ∀ cur, splitLinesGo cur cs = (if cur ++ cs = [] then [] else [cur ++ cs]) := by
  induction cs with
  | nil =>
    intro cur
    have h0 : splitLinesGo cur [] = if cur = [] then [] else [cur] := rfl
    rw [h0]
    by_cases hcur : cur = []
    · rw [if_pos hcur, if_pos (by simp [hcur])]
    · rw [if_neg hcur, if_neg (by simp [hcur])]
      simp
  | cons c cs ih =>
    intro cur
    rcases h c (by simp) with rfl | rfl
    · rw [splitLinesGo_step_a,
        ih (fun d hd => h d (by simp [hd])) (cur ++ [('a')])]
      simp
    · rw [splitLinesGo_step_sp,
        ih (fun d hd => h d (by simp [hd])) (cur ++ [(' ')])]
      simp

theorem headingMatch_aTxt (n : Nat) : headingMatch (aTxt n) = false := by
  cases n with
  | zero => decide
  | succ m => rw [aTxt_succ]; rfl

theorem structural_split_aTxt (n : Nat) :
    structural_split (aTxt n) = [aTxt n] := by
  have hnl : ∀ c ∈ aTxt n, c ≠ ('\n' : Char) := by
    intro c hc
    rcases aTxt_chars n c hc with rfl | rfl
    · decide
    · decide
  have hmn : splitMultiNewline [] [] (aTxt n) = [aTxt n] := by
    rw [splitMN_no_nl (aTxt n) hnl []]
    simp
  have hlines : pySplitLines (aTxt n) = [aTxt n] := by
    rw [pySplitLines, splitLinesGo_aa (aTxt n) (aTxt_chars n) []]
    simp [aTxt_ne_nil n]
  simp only [structural_split, hmn, List.map_cons, List.map_nil, strip_aTxt]
  rw [List.filter_cons, if_pos (by simp [aTxt_ne_nil n])]
  simp only [List.filter_nil, List.map_cons, List.map_nil]
  rw [refineBlock, hlines]
  simp only [refineGo, strip_aTxt, headingMatch_aTxt]
  rw [if_neg (by simp)]
  simp only [refineGo, List.nil_append]
  rw [if_pos (by simp)]
  show List.filter _ ([strip (sepJoin [aTxt n])] ++ []) = [aTxt n]
  rw [show sepJoin [aTxt n] = aTxt n from rfl, strip_aTxt]
  rw [List.append_nil, List.filter_cons, if_pos (by simp [aTxt_ne_nil n])]
  simp

theorem splitWs_aTxt (n : Nat) :
    splitWs (aTxt n) = List.replicate (n + 1) (('a') :: []) := by
  rw [aTxt, splitWs_sepJoin_tokens]
  intro t ht
  rw [List.eq_of_mem_replicate ht]
  exact ⟨by simp, by decide⟩

theorem semantic_chunk_structural_aTxt (n : Nat) :
    ((semantic_chunk (aTxt n) (("structural").toList) 110 180 35 (by omega)
        (by omega) (by omega)).map (fun c => (splitWs c.text).length)) =
      [n + 1] := by
  simp only [semantic_chunk, strip_aTxt]
  rw [if_neg (aTxt_ne_nil n), if_neg (by decide)]
  simp only [if_true]
  rw [structural_split_aTxt]
  simp [splitWs_aTxt]

/-- C5 counterexample: the claimed hard ceiling on unit token counts fails
for the `"structural"` strategy.  A single 400-token paragraph with no blank
lines and no headings is returned unchanged as one unit of 400 whitespace
tokens, above `max_tokens = 180` plus the sliding-window overlap 35 and even
above the hybrid threshold `max_tokens * 1.8 = 324`; no strategy-enforced
ceiling exists on this path. -/
theorem semantic_chunk_structural_exceeds :
    ((semantic_chunk (aTxt 399) (("structural").toList) 110 180 35 (by omega)
        (by omega) (by omega)).map (fun c => (splitWs c.text).length)) =
      [400] ∧ 180 + 35 < 400 ∧ 9 * 180 < 5 * 400 :=
  ⟨semantic_chunk_structural_aTxt 399, by omega, by omega⟩

/-- C5 (amended): for every input text and strategy, with the source
defaults `target_tokens = 110`, `max_tokens = 180`, `overlap = 35`, every
unit returned by `semantic_chunk` has a whitespace-token count of at least 1
(no returned unit has empty text), and for every strategy EXCEPT
`"structural"` the count is at most `max_tokens = 180`; the `"structural"`
strategy enforces no upper bound (see the counterexample). -/
theorem semantic_chunk_token_bounds (text strategy : Str) :
    ∀ c ∈ semantic_chunk text strategy 110 180 35 (by omega) (by omega)
        (by omega),
      1 ≤ (splitWs c.text).length ∧
      (strategy ≠ ("structural").toList → (splitWs c.text).length ≤ 180) := by
  intro c hc
  simp only [semantic_chunk] at hc
  by_cases ht : strip text = []
  · rw [if_pos ht] at hc
    simp at hc
  · rw [if_neg ht] at hc
    by_cases hsl : strategy = ("sliding").toList
    · rw [if_pos hsl] at hc
      have hb := sliding_bounds (strip text) 110 35 (by omega) c hc
      exact ⟨hb.1, fun _ => le_trans hb.2 (by omega)⟩
    · rw [if_neg hsl] at hc
      by_cases hst : strategy = ("structural").toList
      · rw [if_pos hst] at hc
        rcases List.mem_map.mp hc with ⟨p, hp, hval⟩
        refine ⟨?_, fun hne => absurd hst hne⟩
        rw [← hval]
        exact structural_split_pos (strip text) p hp
      · rw [if_neg hst] at hc
        by_cases hsem : strategy = ("semantic").toList
        · rw [if_pos hsem] at hc
          have hb := semantic_pack_bounds (splitSentences (strip text)) 110 180
            (by omega) (by omega) c hc
          exact ⟨hb.1, fun _ => hb.2⟩
        · rw [if_neg hsem] at hc
          by_cases hcond : (semantic_pack (structural_split (strip text)) 110 180
              (by omega)).length ≤ 2 ∧ 9 * 180 < 5 * (splitWs (strip text)).length
          · rw [if_pos hcond] at hc
            have hsub := dedupByKeyGo_subset _ _ c hc
            rcases List.mem_append.mp hsub with hmem | hmem
            · have hb := semantic_pack_bounds (structural_split (strip text)) 110 180
                (by omega) (by omega) c hmem
              exact ⟨hb.1, fun _ => hb.2⟩
            · have hb := sliding_bounds (strip text) 180 35 (by omega) c hmem
              exact ⟨hb.1, fun _ => hb.2⟩
          · rw [if_neg hcond] at hc
            have hb := semantic_pack_bounds (structural_split (strip text)) 110 180
              (by omega) (by omega) c hc
            exact ⟨hb.1, fun _ => hb.2⟩

/-- Witness for the amended C5 bound on a concrete semantic-strategy run. -/
theorem semantic_chunk_token_bounds_witness :
    1 ≤ (splitWs (Chunk.text ⟨(("tulsi is sacred").toList),
      (("tulsi is sacred").toList)⟩)).length ∧
    (splitWs (Chunk.text ⟨(("tulsi is sacred").toList),
      (("tulsi is sacred").toList)⟩)).length ≤ 180 := by
  have h := semantic_chunk_token_bounds (("tulsi is sacred").toList)
    (("semantic").toList)
    ⟨(("tulsi is sacred").toList), (("tulsi is sacred").toList)⟩ (by decide)
  exact ⟨h.1, h.2 (by decide)⟩

end AyurvaBot
